import Mathlib

set_option maxRecDepth 100000

/-!
Shallow embedding of `scripts/validate-marketplace-pr.mjs`.

The script validates a proposed marketplace `index.json` ("pr") against the
current one ("base"): top-level shape, per-plugin and per-version shape,
immutability of already-published versions (compared by canonical
serialization), plugin-removal detection, and integrity of newly added
artifacts (fetch + SHA-256 compare).

Values parsed from JSON are modelled by the `Json` inductive below; a missing
object field (JavaScript `undefined`) is modelled as `Option.none` at use
sites.  JSON numbers are modelled as integers (every number appearing in the
validator's checks is compared either to `1` or to `0`, or tested with
`Number.isInteger`/`< 0`).  The two effectful platform primitives the script
uses are passed in explicitly: `fetch` as an oracle `String → FetchResponse`
and the SHA-256 hex digest as `hashHex : List Nat → String`.
-/

/-- A JSON value as produced by `JSON.parse`.  Objects are ordered lists of
key/value fields; `JSON.parse` never produces duplicate keys in one object,
but the type does not enforce that (predicates below take it as a hypothesis
where it matters). -/
inductive Json where
  | null : Json
  | bool : Bool → Json
  | num : Int → Json
  | str : String → Json
  | arr : List Json → Json
  | obj : List (String × Json) → Json

/-- Field lookup on an object, first match; on any non-object value the
result is `none`, matching JavaScript property access returning `undefined`
for the fields this script reads. -/
def lookupField : List (String × Json) → String → Option Json
  | [], _ => none
  | (k', v) :: rest, k => if k' = k then some v else lookupField rest k

/-- Property access `value.k`: `some` is a present field, `none` is
JavaScript `undefined`. -/
def getField : Json → String → Option Json
  | .obj fields, k => lookupField fields k
  | _, _ => none

/-- Optional chaining `value?.k` composed after a possibly-undefined value. -/
def optChain (v : Option Json) (k : String) : Option Json :=
  match v with
  | some j => getField j k
  | none => none

/-- JavaScript truthiness of a possibly-undefined value. -/
def jsTruthy : Option Json → Bool
  | none => false
  | some .null => false
  | some (.bool b) => b
  | some (.num n) => n != 0
  | some (.str s) => s != ""
  | some (.arr _) => true
  | some (.obj _) => true

/-- Join a list of strings with a separator (model of `Array.prototype.join`). -/
def joinStrings (sep : String) : List String → String
  | [] => ""
  | [x] => x
  | x :: xs => x ++ sep ++ joinStrings sep xs

mutual
/-- JavaScript `String(value)` for values originating from `JSON.parse`
(so `undefined` cannot occur inside arrays). -/
def jsToString : Json → String
  | .null => "null"
  | .bool b => if b then "true" else "false"
  | .num n => toString n
  | .str s => s
  | .arr l => joinStrings "," (jsToStringArr l)
  | .obj _ => "[object Object]"

/-- Elements of an array under `Array.prototype.toString` (= `join(",")`);
a `null` element contributes the empty string. -/
def jsToStringArr : List Json → List String
  | [] => []
  | .null :: rest => "" :: jsToStringArr rest
  | v :: rest => jsToString v :: jsToStringArr rest
end

/-- Template-literal interpolation `${v}` of a possibly-undefined value. -/
def jsTemplate : Option Json → String
  | none => "undefined"
  | some j => jsToString j

/-- Model of `value.trim()`: drop whitespace at both ends. -/
def jsTrim (s : String) : String :=
  ⟨((s.data.dropWhile Char.isWhitespace).reverse.dropWhile Char.isWhitespace).reverse⟩

/-- Model of `value.toLowerCase()` (ASCII case mapping, which is all the
validator's inputs exercise). -/
def jsLower (s : String) : String :=
  ⟨s.data.map Char.toLower⟩

/-- Source `isNonEmptyString`: `typeof value === 'string' &&
value.trim().length > 0`.  A trimmed string is nonempty exactly when the
string contains a non-whitespace character. -/
def isNonEmptyString (v : Option Json) : Bool :=
  match v with
  | some (.str s) => s.data.any (fun c => !c.isWhitespace)
  | _ => false

/-- Source `isValidId`: the regex test `^[a-zA-Z0-9_-]{1,64}$`. -/
def isValidId (s : String) : Bool :=
  decide (1 ≤ s.data.length) && decide (s.data.length ≤ 64) &&
    s.data.all (fun c => c.isAlpha || c.isDigit || c == '_' || c == '-')

/-- Model of `s.startsWith(p)`. -/
def jsStartsWith (s p : String) : Bool := p.data.isPrefixOf s.data

/-- Model of `s.endsWith(p)`. -/
def jsEndsWith (s p : String) : Bool := p.data.isSuffixOf s.data

/-- Source `isValidPath`: `isNonEmptyString(value) && value.startsWith('dist/')`. -/
def isValidPath (v : Option Json) : Bool :=
  isNonEmptyString v &&
    (match v with
     | some (.str s) => jsStartsWith s "dist/"
     | _ => false)

/-- Source `isValidSha256`: the regex test `^[a-f0-9]{64}$`. -/
def isValidSha256 (s : String) : Bool :=
  decide (s.data.length = 64) &&
    s.data.all (fun c => c.isDigit || (decide ('a' ≤ c) && decide (c ≤ 'f')))

/-- Result of `new URL(s)` as consumed by the validator: the (lower-cased)
scheme with its trailing colon, and the path without query or fragment. -/
structure JsURL where
  protocol : String
  pathname : String
deriving DecidableEq

/-- Characters allowed after the first character of a URL scheme. -/
def isSchemeChar (c : Char) : Bool :=
  c.isAlpha || c.isDigit || c == '+' || c == '-' || c == '.'

/-- Split a character list at the first character satisfying `p`; the second
component starts with that character (or is empty). -/
def takeUntil (p : Char → Bool) : List Char → List Char × List Char
  | [] => ([], [])
  | c :: cs =>
    if p c then ([], c :: cs)
    else
      let r := takeUntil p cs
      (c :: r.1, r.2)

/-- Model of the WHATWG `new URL(s)` constructor restricted to what the
validator consumes: an absolute URL `scheme:...` is required (else the
constructor throws, modelled as `none`); `protocol` is the lower-cased scheme
followed by `:`; for `scheme://authority/path` the `pathname` is the part
from the first `/` after the authority up to `?` or `#` (defaulting to `/`),
and for a non-hierarchical `scheme:rest` it is `rest` up to `?` or `#`. -/
def parseURL (s : String) : Option JsURL :=
  let split := takeUntil (fun c => c == ':') s.data
  match split.2 with
  | ':' :: afterColon =>
    match split.1 with
    | [] => none
    | c0 :: crest =>
      if c0.isAlpha && crest.all isSchemeChar then
        let protocol := String.mk ((c0 :: crest).map Char.toLower) ++ ":"
        match afterColon with
        | '/' :: '/' :: afterSlashes =>
          let auth := takeUntil (fun c => c == '/' || c == '?' || c == '#') afterSlashes
          if auth.1.isEmpty then none
          else
            let path := takeUntil (fun c => c == '?' || c == '#') auth.2
            some ⟨protocol, if path.1.isEmpty then "/" else String.mk path.1⟩
        | _ =>
          let path := takeUntil (fun c => c == '?' || c == '#') afterColon
          some ⟨protocol, String.mk path.1⟩
      else none
  | _ => none

/-- Hex digit character for `n < 16`, lower case. -/
def hexDigit (n : Nat) : Char :=
  if n < 10 then Char.ofNat ('0'.toNat + n) else Char.ofNat ('a'.toNat + (n - 10))

/-- Escape of one character inside a JSON string literal, as produced by
`JSON.stringify`. -/
def quoteChar (c : Char) : List Char :=
  if c == '"' then ['\\', '"']
  else if c == '\\' then ['\\', '\\']
  else if c == '\x08' then ['\\', 'b']
  else if c == '\x09' then ['\\', 't']
  else if c == '\x0a' then ['\\', 'n']
  else if c == '\x0c' then ['\\', 'f']
  else if c == '\x0d' then ['\\', 'r']
  else if c.toNat < 0x20 then
    ['\\', 'u', '0', '0', hexDigit (c.toNat / 16), hexDigit (c.toNat % 16)]
  else [c]

/-- A JSON string literal as produced by `JSON.stringify` on a string. -/
def quoteStr (s : String) : String :=
  String.mk ('"' :: (s.data.flatMap quoteChar) ++ ['"'])

mutual
/-- Model of `JSON.stringify(value)` (no spacing argument) on values coming
from `JSON.parse`, with integer-valued numbers. -/
def serializeJson : Json → String
  | .null => "null"
  | .bool b => if b then "true" else "false"
  | .num n => toString n
  | .str s => quoteStr s
  | .arr l => "[" ++ joinStrings "," (serializeList l) ++ "]"
  | .obj l => "\x7b" ++ joinStrings "," (serializeFields l) ++ "\x7d"

/-- Serialized forms of the elements of an array. -/
def serializeList : List Json → List String
  | [] => []
  | v :: rest => serializeJson v :: serializeList rest

/-- Serialized `"key":value` members of an object, in field order. -/
def serializeFields : List (String × Json) → List String
  | [] => []
  | (k, v) :: rest => (quoteStr k ++ ":" ++ serializeJson v) :: serializeFields rest
end

/-- Lexicographic comparison of character lists by code point, the order
`Array.prototype.sort()` uses on the (ASCII) key strings here. -/
def charListLe : List Char → List Char → Bool
  | [], _ => true
  | _ :: _, [] => false
  | a :: as, b :: bs =>
    if a < b then true
    else if b < a then false
    else charListLe as bs

/-- Key order used to sort object fields. -/
def keyLeB (p q : String × Json) : Bool := charListLe p.1.data q.1.data

/-- Insert a field into a list sorted by `keyLeB`, before the first field it
compares `≤` to (a stable insertion). -/
def insertSorted (e : String × Json) : List (String × Json) → List (String × Json)
  | [] => [e]
  | f :: rest => if keyLeB e f then e :: f :: rest else f :: insertSorted e rest

/-- Stable insertion sort of object fields by key.  `Object.keys(o).sort()`
followed by rebuilding the object in sorted key order produces exactly the
fields sorted stably by key (keys of a parsed object are distinct, so any
stable sort agrees). -/
def sortFields : List (String × Json) → List (String × Json)
  | [] => []
  | e :: rest => insertSorted e (sortFields rest)

mutual
/-- Source `stableObject`: recursively sort the keys of every object
(arrays keep their order, scalars are unchanged).  The source sorts the keys
of an object and then recurses into each value; recursing first and then
sorting yields the same fields since sorting only inspects keys. -/
def stableObject : Json → Json
  | .null => .null
  | .bool b => .bool b
  | .num n => .num n
  | .str s => .str s
  | .arr l => .arr (stableList l)
  | .obj l => .obj (sortFields (stableFields l))

/-- `stableObject` mapped over array elements. -/
def stableList : List Json → List Json
  | [] => []
  | v :: rest => stableObject v :: stableList rest

/-- `stableObject` mapped over the values of object fields. -/
def stableFields : List (String × Json) → List (String × Json)
  | [] => []
  | (k, v) :: rest => (k, stableObject v) :: stableFields rest
end

/-- Source `stableStringify`. -/
def stableStringify (value : Json) : String :=
  serializeJson (stableObject value)

/-- Strict equality `!==` between two values read from two separately parsed
documents: primitives compare by value; objects and arrays obtained from
distinct `JSON.parse` calls are distinct references, hence never strictly
equal. -/
def jsStrictEqSeparate : Option Json → Option Json → Bool
  | none, none => true
  | some .null, some .null => true
  | some (.bool a), some (.bool b) => a == b
  | some (.num a), some (.num b) => a == b
  | some (.str a), some (.str b) => a == b
  | _, _ => false

/-- `Map.prototype.set` on a string-keyed map kept as an association list in
insertion order: an existing key keeps its position and gets the new value,
a new key is appended. -/
def mapSet (m : List (String × Json)) (k : String) (v : Json) : List (String × Json) :=
  match m with
  | [] => [(k, v)]
  | (k', v') :: rest => if k' = k then (k, v) :: rest else (k', v') :: mapSet rest k v

/-- `Map.prototype.get` on a string-keyed map (keys are unique by
construction, so the first match is the binding). -/
def mapGet (m : List (String × Json)) (k : String) : Option Json :=
  lookupField m k

/-- String value of a possibly-undefined field, used where the source writes
`String(x || '')`: a falsy value contributes the empty string. -/
def jsStringOrEmpty (v : Option Json) : String :=
  if jsTruthy v then jsTemplate v else ""

/-- Source `validateIndexShape`: returns the errors it pushes and the plugin
list it returns (`[]` when `plugins` is not an array, otherwise the
document's `plugins` array, whatever the other checks said). -/
def validateIndexShape (index : Json) (label : String) : List String × List Json :=
  let e1 :=
    match getField index "schemaVersion" with
    | some (.num 1) => []
    | _ => [label ++ ": schemaVersion must be 1"]
  let e2 :=
    if isNonEmptyString (getField index "name") then []
    else [label ++ ": name is required"]
  match getField index "plugins" with
  | some (.arr plugins) => (e1 ++ e2, plugins)
  | _ => (e1 ++ e2 ++ [label ++ ": plugins must be an array"], [])

/-- Error from the top-level name comparison `baseIndex.name !== prIndex.name`. -/
def nameErrors (baseIndex prIndex : Json) : List String :=
  if jsStrictEqSeparate (getField baseIndex "name") (getField prIndex "name") then []
  else ["pr index.json: top-level name cannot be changed"]

/-- The entry check `!plugin || typeof plugin !== 'object'` (note that
`typeof` classifies arrays, and `null`, as `'object'`; `null` is excluded by
the truthiness test). -/
def isObjectEntry (j : Json) : Bool :=
  jsTruthy (some j) &&
    (match j with
     | .obj _ => true
     | .arr _ => true
     | .null => true
     | _ => false)

/-- Construction of `basePluginMap`: base plugins that are truthy and have a
non-empty-string `id`, keyed by that id, later entries overwriting earlier
ones in place. -/
def basePluginMapGo (acc : List (String × Json)) : List Json → List (String × Json)
  | [] => acc
  | p :: rest =>
    match getField p "id" with
    | some (.str s) =>
      if jsTruthy (some p) && isNonEmptyString (some (.str s)) then
        basePluginMapGo (mapSet acc s p) rest
      else basePluginMapGo acc rest
    | _ => basePluginMapGo acc rest

/-- The `basePluginMap` built from the base document's plugin list. -/
def basePluginMapOf (plugins : List Json) : List (String × Json) :=
  basePluginMapGo [] plugins

/-- Errors pushed for one pr plugin entry by the checks of the pr plugin
loop (the entry is already known to pass the object check).  `ids` is the
current `prPluginIds` set. -/
def prPluginCheckErrors (ids : List String) (plugin : Json) : List String :=
  let idPart :=
    match getField plugin "id" with
    | some (.str s) =>
      if isNonEmptyString (some (.str s)) && isValidId s then
        if ids.contains s then ["pr index.json: duplicate plugin id \"" ++ s ++ "\""] else []
      else ["pr index.json: plugin id must match [a-zA-Z0-9_-]\x7b1,64\x7d"]
    | _ => ["pr index.json: plugin id must match [a-zA-Z0-9_-]\x7b1,64\x7d"]
  let pidStr := if jsTruthy (getField plugin "id") then jsTemplate (getField plugin "id") else "unknown"
  let namePart :=
    if isNonEmptyString (getField plugin "name") then []
    else ["pr index.json: plugin \"" ++ pidStr ++ "\" missing name"]
  let descPart :=
    match getField plugin "description" with
    | none => []
    | some d =>
      if isNonEmptyString (some d) then []
      else ["pr index.json: plugin \"" ++ pidStr ++ "\" description must be non-empty"]
  let readmePart :=
    match getField plugin "readme" with
    | none => []
    | some r =>
      match parseURL (jsTrim (jsStringOrEmpty (some r))) with
      | some u =>
        if u.protocol = "https:" then []
        else ["pr index.json: plugin \"" ++ pidStr ++ "\" readme must use https"]
      | none => ["pr index.json: plugin \"" ++ pidStr ++ "\" readme must be a valid url"]
  let versionsPart :=
    match getField plugin "versions" with
    | some (.arr vs) =>
      if vs.isEmpty then ["pr index.json: plugin \"" ++ pidStr ++ "\" must have versions"] else []
    | _ => ["pr index.json: plugin \"" ++ pidStr ++ "\" must have versions"]
  idPart ++ namePart ++ descPart ++ readmePart ++ versionsPart

/-- Update of the `prPluginIds` set after one pr plugin entry: the id is
added when it is a valid, not-yet-seen id. -/
def prIdsStep (ids : List String) (plugin : Json) : List String :=
  match getField plugin "id" with
  | some (.str s) =>
    if isNonEmptyString (some (.str s)) && isValidId s then
      if ids.contains s then ids else ids ++ [s]
    else ids
  | _ => ids

/-- The pr plugin loop: walks the pr plugin list, pushing per-plugin errors
and building `prPluginMap`.  The map is recorded as `(id value, plugin)`
pairs in insertion order; only object entries are recorded (non-objects
`continue` before the `set`). -/
def prLoop (ids : List String) : List Json → List String × List (Option Json × Json)
  | [] => ([], [])
  | plugin :: rest =>
    if isObjectEntry plugin then
      let es1 := prPluginCheckErrors ids plugin
      let r := prLoop (prIdsStep ids plugin) rest
      (es1 ++ r.1, (getField plugin "id", plugin) :: r.2)
    else
      let r := prLoop ids rest
      ("pr index.json: plugin entry must be an object" :: r.1, r.2)

/-- `prPluginMap.get(id)` for a string key `id`: the value set last under
that key (only string keys can match; `Map` keys that are not strings never
equal a string key). -/
def prGet (entries : List (Option Json × Json)) (s : String) : Option Json :=
  match entries with
  | [] => none
  | (k, p) :: rest =>
    match prGet rest s with
    | some q => some q
    | none =>
      match k with
      | some (.str t) => if t = s then some p else none
      | _ => none

/-- The plugin-removal loop: one error per `basePluginMap` entry whose id has
no (truthy) entry in `prPluginMap`. -/
def removalErrors (baseMap : List (String × Json)) (prEntries : List (Option Json × Json)) :
    List String :=
  match baseMap with
  | [] => []
  | (id, _) :: rest =>
    (if jsTruthy (prGet prEntries id) then [] else ["pr index.json: plugin \"" ++ id ++ "\" removed"])
      ++ removalErrors rest prEntries

/-- Construction of `baseVersions` for one pr plugin: versions of the base
counterpart that are truthy and carry a non-empty-string `version`, keyed by
that string, later entries overwriting earlier ones. -/
def baseVersionsGo (acc : List (String × Json)) : List Json → List (String × Json)
  | [] => acc
  | v :: rest =>
    match getField v "version" with
    | some (.str s) =>
      if jsTruthy (some v) && isNonEmptyString (some (.str s)) then
        baseVersionsGo (mapSet acc s v) rest
      else baseVersionsGo acc rest
    | _ => baseVersionsGo acc rest

/-- `baseVersions` for a possibly-missing base plugin. -/
def baseVersionsOf (basePlugin : Option Json) : List (String × Json) :=
  if jsTruthy basePlugin then
    match optChain basePlugin "versions" with
    | some (.arr vs) => baseVersionsGo [] vs
    | _ => []
  else []

/-- The version label `"<pluginId>/<version>"`, with `'unknown'` for falsy
components, as interpolated by the source. -/
def versionLabelOf (plugin version : Json) : String :=
  (if jsTruthy (getField plugin "id") then jsTemplate (getField plugin "id") else "unknown")
    ++ "/" ++
    (if jsTruthy (getField version "version") then jsTemplate (getField version "version")
     else "unknown")

/-- `baseVersions.get(version.version)`: misses whenever `version.version`
is not a string (map keys are strings). -/
def versionBaseLookup (bm : List (String × Json)) (version : Json) : Option Json :=
  match getField version "version" with
  | some (.str s) => mapGet bm s
  | _ => none

/-- Errors from the `version`-string checks (missing / duplicate), together
with the updated `seenVersions` set. -/
def versionStringErrors (seen : List String) (plugin version : Json) (label : String) :
    List String × List String :=
  match getField version "version" with
  | some (.str s) =>
    if isNonEmptyString (some (.str s)) then
      if seen.contains s then
        (["pr index.json: duplicate version \"" ++ s ++ "\" in \"" ++
            jsTemplate (getField plugin "id") ++ "\""], seen)
      else ([], seen ++ [s])
    else (["pr index.json: version \"" ++ label ++ "\" missing version"], seen)
  | _ => (["pr index.json: version \"" ++ label ++ "\" missing version"], seen)

/-- Error from the `entry` shape check. -/
def entryErrors (version : Json) (label : String) : List String :=
  let entry := getField version "entry"
  let ok := jsTruthy entry &&
    (match optChain entry "type" with
     | some (.str "file") => true
     | _ => false) &&
    isValidPath (optChain entry "path")
  if ok then []
  else ["pr index.json: version \"" ++ label ++ "\" entry must be type \"file\" with dist/ path"]

/-- The combined `dist` shape condition of line 172: `dist` truthy, `type`
strictly `'tgz'`, `url` a non-empty string, and `String(sha256 || '')`
lower-cased a valid sha256. -/
def distShapeOk (version : Json) : Bool :=
  let dist := getField version "dist"
  jsTruthy dist &&
    (match optChain dist "type" with
     | some (.str "tgz") => true
     | _ => false) &&
    isNonEmptyString (optChain dist "url") &&
    isValidSha256 (jsLower (jsStringOrEmpty (optChain dist "sha256")))

/-- Errors from `new URL(dist.url)` and the scheme / `.tgz` checks. -/
def distUrlErrors (u : String) (label : String) : List String :=
  match parseURL u with
  | none => ["pr index.json: version \"" ++ label ++ "\" dist.url is invalid"]
  | some parsed =>
    (if parsed.protocol = "https:" then []
     else ["pr index.json: version \"" ++ label ++ "\" dist.url must use https"]) ++
    (if jsEndsWith parsed.pathname ".tgz" then []
     else ["pr index.json: version \"" ++ label ++ "\" dist.url must end with .tgz"])

/-- Errors from the whole `dist` block: the combined shape error, or else the
url checks on the (then known to be a non-empty string) `dist.url`. -/
def distErrors (version : Json) (label : String) : List String :=
  if distShapeOk version then
    match optChain (getField version "dist") "url" with
    | some (.str u) => distUrlErrors u label
    | _ => []
  else ["pr index.json: version \"" ++ label ++ "\" dist must include type \"tgz\", url, sha256"]

/-- Errors from the optional `permissions` block. -/
def permissionsErrors (version : Json) (label : String) : List String :=
  match getField version "permissions" with
  | none => []
  | some p =>
    match p with
    | .obj _ | .arr _ =>
      let instancesPart :=
        match getField p "instances" with
        | none => []
        | some (.arr l) =>
          if l.any (fun v => match v with | .num n => decide (n < 0) | _ => true) then
            ["pr index.json: version \"" ++ label ++
              "\" permissions.instances must be non-negative integers"]
          else []
        | some _ =>
          ["pr index.json: version \"" ++ label ++ "\" permissions.instances must be an array"]
      let networkPart :=
        match getField p "network" with
        | none => []
        | some (.arr l) =>
          if l.any (fun v => !isNonEmptyString (some v)) then
            ["pr index.json: version \"" ++ label ++ "\" permissions.network must be strings"]
          else []
        | some _ =>
          ["pr index.json: version \"" ++ label ++ "\" permissions.network must be an array"]
      let fsPart :=
        match getField p "fs" with
        | none => []
        | some (.arr l) =>
          if l.any (fun v => !isNonEmptyString (some v)) then
            ["pr index.json: version \"" ++ label ++ "\" permissions.fs must be strings"]
          else []
        | some _ =>
          ["pr index.json: version \"" ++ label ++ "\" permissions.fs must be an array"]
      instancesPart ++ networkPart ++ fsPart
    | _ => ["pr index.json: version \"" ++ label ++ "\" permissions must be an object"]

/-- An entry of the `downloads` queue: the label, the raw `dist.url` value,
and `String(dist.sha256).toLowerCase()`. -/
structure Download where
  label : String
  url : Json
  sha256 : String

/-- The queueing step of lines 230-236: a version reaching it (one with no
truthy base counterpart) is queued iff `dist?.url` and `dist?.sha256` are
both truthy, whatever the shape checks said. -/
def queuedOf (plugin version : Json) : List Download :=
  let u := optChain (getField version "dist") "url"
  let h := optChain (getField version "dist") "sha256"
  if jsTruthy u && jsTruthy h then
    match u, h with
    | some uv, some hv =>
      [⟨versionLabelOf plugin version, uv, jsLower (jsToString hv)⟩]
    | _, _ => []
  else []

/-- One iteration of the version loop: errors pushed, updated `seenVersions`,
and queued downloads. -/
def walkVersion (bm : List (String × Json)) (plugin : Json) (seen : List String)
    (version : Json) : List String × List String × List Download :=
  let label := versionLabelOf plugin version
  if isObjectEntry version then
    let r1 := versionStringErrors seen plugin version label
    let head := r1.1 ++ entryErrors version label ++ distErrors version label ++
      permissionsErrors version label
    let bv := versionBaseLookup bm version
    if jsTruthy bv then
      (head ++
        (if stableStringify ((bv.getD .null)) = stableStringify version then []
         else ["pr index.json: version \"" ++ label ++ "\" modifies existing version"]),
       r1.2, [])
    else
      (head, r1.2, queuedOf plugin version)
  else
    (["pr index.json: version \"" ++ label ++ "\" must be an object"], seen, [])

/-- The version loop over one plugin's `versions` array. -/
def walkVersions (bm : List (String × Json)) (plugin : Json) (seen : List String) :
    List Json → List String × List Download
  | [] => ([], [])
  | v :: rest =>
    let r := walkVersion bm plugin seen v
    let r2 := walkVersions bm plugin r.2.1 rest
    (r.1 ++ r2.1, r.2.2 ++ r2.2)

/-- The `baseVersions` map the walk uses for a pr plugin:
`basePluginMap.get(plugin.id)` (misses when `id` is not a string) and then
its versions keyed by version string. -/
def pluginBaseVersions (baseMap : List (String × Json)) (plugin : Json) :
    List (String × Json) :=
  baseVersionsOf
    (match getField plugin "id" with
     | some (.str s) => mapGet baseMap s
     | _ => none)

/-- The per-plugin part of the walk of lines 139-238. -/
def walkPlugin (baseMap : List (String × Json)) (plugin : Json) :
    List String × List Download :=
  if isObjectEntry plugin then
    match getField plugin "versions" with
    | some (.arr vs) => walkVersions (pluginBaseVersions baseMap plugin) plugin [] vs
    | _ => ([], [])
  else ([], [])

/-- The whole pr plugin/version walk: errors and the download queue, in
plugin order. -/
def walkAll (baseMap : List (String × Json)) : List Json → List String × List Download
  | [] => ([], [])
  | plugin :: rest =>
    let r := walkPlugin baseMap plugin
    let r2 := walkAll baseMap rest
    (r.1 ++ r2.1, r.2 ++ r2.2)

/-- A fetched HTTP response as consumed by `checkDownload`: `ok`, `status`,
`statusText` and the body bytes. -/
structure FetchResponse where
  ok : Bool
  status : Nat
  statusText : String
  body : List Nat

/-- Source `checkDownload`, with `fetch` as an oracle from the stringified
url and SHA-256 as `hashHex` producing the hex digest of the body bytes. -/
def checkDownloadErrors (fetchO : String → FetchResponse) (hashHex : List Nat → String)
    (d : Download) : List String :=
  let r := fetchO (jsToString d.url)
  if r.ok then
    if hashHex r.body = d.sha256 then []
    else ["dist sha256 mismatch for \"" ++ d.label ++ "\""]
  else
    ["dist download failed for \"" ++ d.label ++ "\": " ++ toString r.status ++ " " ++ r.statusText]

/-- The sequential download loop. -/
def downloadLoopErrors (fetchO : String → FetchResponse) (hashHex : List Nat → String) :
    List Download → List String
  | [] => []
  | d :: rest => checkDownloadErrors fetchO hashHex d ++ downloadLoopErrors fetchO hashHex rest

/-- The final result `{ok, errors}`. -/
structure VResult where
  ok : Bool
  errors : List String
deriving DecidableEq

/-- Plugin list of the base document as the script reads it. -/
def basePluginsOf (baseIndex : Json) : List Json :=
  (validateIndexShape baseIndex "base index.json").2

/-- Plugin list of the pr document as the script reads it. -/
def prPluginsOf (prIndex : Json) : List Json :=
  (validateIndexShape prIndex "pr index.json").2

/-- `basePluginMap` of the base document. -/
def baseMapOf (baseIndex : Json) : List (String × Json) :=
  basePluginMapOf (basePluginsOf baseIndex)

/-- Errors and download queue of the pr walk, from the two documents. -/
def walkResultOf (baseIndex prIndex : Json) : List String × List Download :=
  walkAll (baseMapOf baseIndex) (prPluginsOf prIndex)

/-- The download queue produced from the two documents. -/
def downloadsOf (baseIndex prIndex : Json) : List Download :=
  (walkResultOf baseIndex prIndex).2

/-- The whole validation run: every stage appends to one error list, in
source order (base shape, pr shape, name, pr plugin loop, removal, version
walk, downloads), and `ok` holds iff that list is empty. -/
def validate (fetchO : String → FetchResponse) (hashHex : List Nat → String)
    (baseIndex prIndex : Json) : VResult :=
  let e1 := (validateIndexShape baseIndex "base index.json").1
  let e2 := (validateIndexShape prIndex "pr index.json").1
  let e3 := nameErrors baseIndex prIndex
  let e4 := (prLoop [] (prPluginsOf prIndex)).1
  let e5 := removalErrors (baseMapOf baseIndex) (prLoop [] (prPluginsOf prIndex)).2
  let e6 := (walkResultOf baseIndex prIndex).1
  let e7 := downloadLoopErrors fetchO hashHex (downloadsOf baseIndex prIndex)
  let errors := e1 ++ e2 ++ e3 ++ e4 ++ e5 ++ e6 ++ e7
  ⟨errors.isEmpty, errors⟩

/-- The `schemaVersion` check of `validateIndexShape`, in isolation. -/
def svErrors (index : Json) (label : String) : List String :=
  match getField index "schemaVersion" with
  | some (.num 1) => []
  | _ => [label ++ ": schemaVersion must be 1"]

/-- The `name` check of `validateIndexShape`, in isolation. -/
def nameReqErrors (index : Json) (label : String) : List String :=
  if isNonEmptyString (getField index "name") then [] else [label ++ ": name is required"]

/-- The `plugins`-is-an-array check of `validateIndexShape`, in isolation. -/
def pluginsArrErrors (index : Json) (label : String) : List String :=
  match getField index "plugins" with
  | some (.arr _) => []
  | _ => [label ++ ": plugins must be an array"]

/-- The plugin list `validateIndexShape` returns: the document's `plugins`
value when it is an array, `[]` otherwise. -/
def pluginsListOf (index : Json) : List Json :=
  match getField index "plugins" with
  | some (.arr plugins) => plugins
  | _ => []

/-- Whether a plugin entry's `id` field is exactly the string `s`. -/
def pluginIdIs (q : Json) (s : String) : Bool :=
  match getField q "id" with
  | some (.str t) => t == s
  | _ => false

/-- Whether a version entry's `version` field is exactly the string `s`. -/
def versionStrIs (v : Json) (s : String) : Bool :=
  match getField v "version" with
  | some (.str t) => t == s
  | _ => false

/-- The `prPluginMap` entries produced by the pr plugin loop (object entries
only, in order, keyed by their raw `id` value). -/
def prEntriesOf : List Json → List (Option Json × Json)
  | [] => []
  | p :: rest =>
    if isObjectEntry p then (getField p "id", p) :: prEntriesOf rest else prEntriesOf rest

/-- A fetch oracle for runs whose download queue is empty or irrelevant:
every request fails with 404. -/
def noFetch : String → FetchResponse := fun _ => ⟨false, 404, "Not Found", []⟩

/-- A hash oracle for runs that never hash anything. -/
def noHash : List Nat → String := fun _ => ""

/-- 64 `'a'` characters: a syntactically valid sha256 value. -/
def shaA : String := String.mk (List.replicate 64 'a')

/-- 64 `'b'` characters: a syntactically valid sha256 value. -/
def shaB : String := String.mk (List.replicate 64 'b')

/-- A well-formed `entry` block. -/
def entryA : Json := .obj [("type", .str "file"), ("path", .str "dist/a.js")]

/-- A well-formed `dist` block. -/
def distA : Json := .obj [("type", .str "tgz"), ("url", .str "https://x/a.tgz"), ("sha256", .str shaA)]

/-- A well-formed version `1.0.0`. -/
def versionA : Json := .obj [("version", .str "1.0.0"), ("entry", entryA), ("dist", distA)]

/-- A well-formed version `2.0.0` of the same artifact. -/
def versionA2 : Json := .obj [("version", .str "2.0.0"), ("entry", entryA), ("dist", distA)]

/-- A well-formed plugin `a` with the single version `1.0.0`. -/
def pluginA : Json := .obj [("id", .str "a"), ("name", .str "A"), ("versions", .arr [versionA])]

/-- A well-formed base document with the single plugin `a`. -/
def baseDoc : Json :=
  .obj [("schemaVersion", .num 1), ("name", .str "m"), ("plugins", .arr [pluginA])]

/-- A document like `baseDoc` but with an empty plugin list. -/
def emptyPluginsDoc : Json :=
  .obj [("schemaVersion", .num 1), ("name", .str "m"), ("plugins", .arr [])]

/-- A document with a wrong `schemaVersion` but a one-entry `plugins` array. -/
def c6doc : Json :=
  .obj [("schemaVersion", .num 2), ("name", .str "x"), ("plugins", .arr [.obj []])]

/-- A well-formed `entry` block for plugin `b`. -/
def entryB : Json := .obj [("type", .str "file"), ("path", .str "dist/b.js")]

/-- A well-formed `dist` block for plugin `b`. -/
def distB : Json := .obj [("type", .str "tgz"), ("url", .str "https://x/b.tgz"), ("sha256", .str shaB)]

/-- A well-formed version `1.0.0` of plugin `b`. -/
def versionB : Json := .obj [("version", .str "1.0.0"), ("entry", entryB), ("dist", distB)]

/-- A well-formed plugin `b`. -/
def pluginB : Json := .obj [("id", .str "b"), ("name", .str "B"), ("versions", .arr [versionB])]

/-- `baseDoc` plus the new plugin `b`: an append-only change whose new
version gets queued for download. -/
def prDocB : Json :=
  .obj [("schemaVersion", .num 1), ("name", .str "m"), ("plugins", .arr [pluginA, pluginB])]

/-- A fetch oracle that always succeeds with body `[0]`. -/
def okFetch : String → FetchResponse := fun _ => ⟨true, 200, "OK", [0]⟩

/-- A fetch oracle that agrees with `okFetch` except on the request `"zzz"`. -/
def okFetch2 : String → FetchResponse :=
  fun s => if s = "zzz" then ⟨false, 500, "ERR", []⟩ else ⟨true, 200, "OK", [0]⟩

/-- A malformed `dist` block whose `url` and `sha256` are nevertheless
truthy: `type` is `"zip"` and `sha256` is not 64 hex characters. -/
def distBad : Json :=
  .obj [("type", .str "zip"), ("url", .str "https://x/a.tgz"), ("sha256", .str "00")]

/-- A version whose `dist` block is malformed but has truthy `url`/`sha256`. -/
def versionBad : Json := .obj [("version", .str "1.0.0"), ("entry", entryA), ("dist", distBad)]

/-- A plugin carrying `versionBad`. -/
def pluginBad : Json := .obj [("id", .str "a"), ("name", .str "A"), ("versions", .arr [versionBad])]

/-- A pr document whose only plugin carries the malformed-dist version. -/
def prDocBad : Json :=
  .obj [("schemaVersion", .num 1), ("name", .str "m"), ("plugins", .arr [pluginBad])]

/-- A shape-valid `dist` block whose url parses with scheme `http` and a
path not ending in `.tgz`. -/
def distHttp : Json :=
  .obj [("type", .str "tgz"), ("url", .str "http://x/a.txt"), ("sha256", .str shaA)]

/-- A version carrying `distHttp`. -/
def versionHttp : Json := .obj [("version", .str "1.0.0"), ("entry", entryA), ("dist", distHttp)]

/-- A shape-valid `dist` block whose url does not parse (no scheme). -/
def distUnparsable : Json :=
  .obj [("type", .str "tgz"), ("url", .str "nourl"), ("sha256", .str shaA)]

/-- A version carrying `distUnparsable`. -/
def versionUnparsable : Json :=
  .obj [("version", .str "2.0.0"), ("entry", entryA), ("dist", distUnparsable)]

/-- A plugin carrying the two bad-url versions. -/
def pluginUrls : Json :=
  .obj [("id", .str "a"), ("name", .str "A"),
    ("versions", .arr [versionHttp, versionUnparsable])]

/-- A pr document whose only plugin carries the two bad-url versions. -/
def prDocUrls : Json :=
  .obj [("schemaVersion", .num 1), ("name", .str "m"), ("plugins", .arr [pluginUrls])]

/-- A base plugin entry with no `id` field at all. -/
def pluginNoId : Json := .obj [("name", .str "X"), ("versions", .arr [versionA2])]

/-- `baseDoc` with the id-less plugin entry prepended to its plugin list. -/
def c9base : Json :=
  .obj [("schemaVersion", .num 1), ("name", .str "m"), ("plugins", .arr [pluginNoId, pluginA])]

/-- Duplicate-freedom of a list of key strings. -/
def strNodup : List String → Bool
  | [] => true
  | k :: ks => !(ks.any (fun x => x == k)) && strNodup ks

mutual
/-- Every object reachable inside the value has duplicate-free keys.  This
holds of every value produced by `JSON.parse` (a JavaScript object cannot
carry two identical keys); the `Json` type itself does not enforce it. -/
def nodupKeys : Json → Bool
  | .null => true
  | .bool _ => true
  | .num _ => true
  | .str _ => true
  | .arr l => nodupKeysList l
  | .obj l => strNodup (l.map Prod.fst) && nodupKeysFields l

/-- `nodupKeys` over the elements of an array. -/
def nodupKeysList : List Json → Bool
  | [] => true
  | v :: rest => nodupKeys v && nodupKeysList rest

/-- `nodupKeys` over the values of object fields. -/
def nodupKeysFields : List (String × Json) → Bool
  | [] => true
  | (_, v) :: rest => nodupKeys v && nodupKeysFields rest
end

mutual
/-- Nesting depth of a value, used as a termination measure. -/
def jdepth : Json → Nat
  | .null => 0
  | .bool _ => 0
  | .num _ => 0
  | .str _ => 0
  | .arr l => jdepthList l + 1
  | .obj l => jdepthFields l + 1

/-- Maximal depth of the elements of an array. -/
def jdepthList : List Json → Nat
  | [] => 0
  | v :: rest => max (jdepth v) (jdepthList rest)

/-- Maximal depth of the values of object fields. -/
def jdepthFields : List (String × Json) → Nat
  | [] => 0
  | (_, v) :: rest => max (jdepth v) (jdepthFields rest)
end

/-- `KeyPerm v w` holds when `w` is obtained from `v` by permuting the
entries of any of its objects — recursively, including objects nested inside
arrays — without changing any scalar value, any array order, or any
key/value association.  At an object, the values are first related
entry-by-entry (same keys, `KeyPerm`-related values) and the resulting entry
list is then permuted. -/
inductive KeyPerm : Json → Json → Prop where
  | null : KeyPerm .null .null
  | bool (b : Bool) : KeyPerm (.bool b) (.bool b)
  | num (n : Int) : KeyPerm (.num n) (.num n)
  | str (s : String) : KeyPerm (.str s) (.str s)
  | arr {l m : List Json} : List.Forall₂ KeyPerm l m → KeyPerm (.arr l) (.arr m)
  | obj {l m m' : List (String × Json)} :
      l.map Prod.fst = m.map Prod.fst →
      List.Forall₂ KeyPerm (l.map Prod.snd) (m.map Prod.snd) →
      m.Perm m' →
      KeyPerm (.obj l) (.obj m')

/-- A well-formed plugin `a` carrying the two versions `1.0.0` and `2.0.0`. -/
def pluginA2 : Json :=
  .obj [("id", .str "a"), ("name", .str "A"), ("versions", .arr [versionA, versionA2])]

/-- A well-formed base document whose plugin `a` has versions `1.0.0` and
`2.0.0`. -/
def c1base : Json :=
  .obj [("schemaVersion", .num 1), ("name", .str "m"), ("plugins", .arr [pluginA2])]

/-- The 22 characters the case-insensitive sha256 check can accept: hex
digits in either case. -/
def hexCIChars : List Char :=
  ['0', '1', '2', '3', '4', '5', '6', '7', '8', '9',
   'A', 'B', 'C', 'D', 'E', 'F', 'a', 'b', 'c', 'd', 'e', 'f']

/-- A 64-character hex string containing uppercase letters. -/
def shaUpper : String := String.mk ('A' :: 'B' :: List.replicate 62 'c')

/-- A `dist` block whose sha256 contains uppercase hex characters. -/
def distUp : Json :=
  .obj [("type", .str "tgz"), ("url", .str "https://x/b.tgz"), ("sha256", .str shaUpper)]

/-- A version carrying `distUp`. -/
def versionUp : Json := .obj [("version", .str "1.0.0"), ("entry", entryB), ("dist", distUp)]

/-- A new plugin `b` carrying `versionUp`. -/
def pluginUp : Json := .obj [("id", .str "b"), ("name", .str "B"), ("versions", .arr [versionUp])]

/-- `baseDoc` plus the new plugin `b` with the uppercase-sha version. -/
def prDocUp : Json :=
  .obj [("schemaVersion", .num 1), ("name", .str "m"), ("plugins", .arr [pluginA, pluginUp])]

/-- Replace the value of the first occurrence of key `k` (the field-update
`o[k] = v` on an object already carrying `k`). -/
def setFields (f : List (String × Json)) (k : String) (v : Json) : List (String × Json) :=
  match f with
  | [] => []
  | (k', v') :: rest => if k' = k then (k, v) :: rest else (k', v') :: setFields rest k v

/-- `setFields` lifted to a value (identity on non-objects). -/
def setField (j : Json) (k : String) (v : Json) : Json :=
  match j with
  | .obj f => .obj (setFields f k v)
  | _ => j

/-- 64 characters, `'z'` followed by 63 `'a'`: one byte of `shaA` changed to
a non-hex character. -/
def shaZ : String := String.mk ('z' :: List.replicate 63 'a')

/-- `distA` with one byte of its sha256 changed to `'z'`. -/
def distZ : Json :=
  .obj [("type", .str "tgz"), ("url", .str "https://x/a.tgz"), ("sha256", .str shaZ)]

/-- `versionA` carrying `distZ` instead of `distA`. -/
def versionZ : Json := .obj [("version", .str "1.0.0"), ("entry", entryA), ("dist", distZ)]

/-- Plugin `a` carrying `versionZ`. -/
def pluginZ : Json := .obj [("id", .str "a"), ("name", .str "A"), ("versions", .arr [versionZ])]

/-- `baseDoc` with the sha256 byte of version `1.0.0` changed to `'z'`. -/
def c3pr : Json :=
  .obj [("schemaVersion", .num 1), ("name", .str "m"), ("plugins", .arr [pluginZ])]

/-- `shaA` with its first byte changed to `'b'`: still 64 hex characters. -/
def shaA1 : String := String.mk ('b' :: List.replicate 63 'a')

/-- A value with nested objects, keys out of alphabetical order. -/
def c4v : Json :=
  .obj [("b", .num 1), ("a", .obj [("y", .arr [.bool true]), ("x", .str "s")])]

/-- `c4v` with the keys of both objects permuted. -/
def c4w : Json :=
  .obj [("a", .obj [("x", .str "s"), ("y", .arr [.bool true])]), ("b", .num 1)]


/-! ## General lemmas about the pipeline -/

theorem isEmpty_false_of_mem {α : Type} {a : α} {l : List α} (h : a ∈ l) :
    l.isEmpty = false := by
  cases l with
  | nil => cases h
  | cons x xs => rfl

theorem validateIndexShape_eq (index : Json) (label : String) :
    validateIndexShape index label =
      (svErrors index label ++ nameReqErrors index label ++ pluginsArrErrors index label,
       pluginsListOf index) := by
  cases hx : getField index "plugins" with
  | none =>
    simp [validateIndexShape, svErrors, nameReqErrors, pluginsArrErrors, pluginsListOf, hx]
  | some j =>
    cases j <;>
      simp [validateIndexShape, svErrors, nameReqErrors, pluginsArrErrors, pluginsListOf, hx]

theorem validate_errors (fetchO : String → FetchResponse) (hashHex : List Nat → String)
    (baseIndex prIndex : Json) :
    (validate fetchO hashHex baseIndex prIndex).errors =
      (validateIndexShape baseIndex "base index.json").1 ++
      (validateIndexShape prIndex "pr index.json").1 ++
      nameErrors baseIndex prIndex ++
      (prLoop [] (prPluginsOf prIndex)).1 ++
      removalErrors (baseMapOf baseIndex) (prLoop [] (prPluginsOf prIndex)).2 ++
      (walkResultOf baseIndex prIndex).1 ++
      downloadLoopErrors fetchO hashHex (downloadsOf baseIndex prIndex) := rfl

theorem validate_ok (fetchO : String → FetchResponse) (hashHex : List Nat → String)
    (baseIndex prIndex : Json) :
    (validate fetchO hashHex baseIndex prIndex).ok =
      (validate fetchO hashHex baseIndex prIndex).errors.isEmpty := rfl

theorem mem_keys_mapSet_self (m : List (String × Json)) (k : String) (v : Json) :
    k ∈ (mapSet m k v).map Prod.fst := by
  induction m with
  | nil => simp [mapSet]
  | cons hd tl ih =>
    rcases hd with ⟨k₀, v₀⟩
    by_cases h : k₀ = k <;> simp [mapSet, h, ih]

theorem mem_keys_mapSet_mono {m : List (String × Json)} {k' : String} (k : String) (v : Json)
    (h : k' ∈ m.map Prod.fst) : k' ∈ (mapSet m k v).map Prod.fst := by
  induction m with
  | nil => cases h
  | cons hd tl ih =>
    rcases hd with ⟨k₀, v₀⟩
    simp only [List.map_cons, List.mem_cons] at h
    by_cases hk : k₀ = k
    · subst hk
      rcases h with h | h
      · subst h
        simp [mapSet]
      · simp [mapSet, h]
    · rcases h with h | h
      · simp [mapSet, hk, h]
      · simp [mapSet, hk, ih h]

theorem keys_basePluginMapGo_mono {acc : List (String × Json)} {s : String} (l : List Json)
    (h : s ∈ acc.map Prod.fst) : s ∈ (basePluginMapGo acc l).map Prod.fst := by
  induction l generalizing acc with
  | nil => exact h
  | cons p rest ih =>
    cases hid : getField p "id" with
    | none => simpa [basePluginMapGo, hid] using ih h
    | some j =>
      cases j <;> simp only [basePluginMapGo, hid] <;>
        first
        | exact ih h
        | (split
           · exact ih (mem_keys_mapSet_mono _ _ h)
           · exact ih h)

theorem mem_keys_basePluginMapGo {p : Json} {s : String} (acc : List (String × Json))
    (l : List Json) (hp : p ∈ l) (hid : getField p "id" = some (.str s))
    (ht : jsTruthy (some p) = true) (hs : isNonEmptyString (some (.str s)) = true) :
    s ∈ (basePluginMapGo acc l).map Prod.fst := by
  induction l generalizing acc with
  | nil => cases hp
  | cons q rest ih =>
    rcases List.mem_cons.mp hp with h | h
    · subst h
      simp only [basePluginMapGo, hid, ht, hs, Bool.and_self, if_true]
      exact keys_basePluginMapGo_mono rest (mem_keys_mapSet_self acc s p)
    · cases hq : getField q "id" with
      | none => simpa [basePluginMapGo, hq] using ih _ h
      | some j =>
        cases j <;> simp only [basePluginMapGo, hq] <;>
          first
          | exact ih _ h
          | (split
             · exact ih _ h
             · exact ih _ h)

theorem removalErrors_mem {baseMap : List (String × Json)} {s : String}
    (entries : List (Option Json × Json)) (hmem : s ∈ baseMap.map Prod.fst)
    (hmiss : jsTruthy (prGet entries s) = false) :
    ("pr index.json: plugin \"" ++ s ++ "\" removed") ∈ removalErrors baseMap entries := by
  induction baseMap with
  | nil => cases hmem
  | cons hd tl ih =>
    rcases hd with ⟨k, v⟩
    simp only [List.map_cons, List.mem_cons] at hmem
    rcases hmem with h | h
    · subst h
      simp [removalErrors, hmiss]
    · rcases jsTruthy (prGet entries k) with _ | _ <;>
        simp [removalErrors, ih h]

theorem prLoop_snd (ids : List String) (l : List Json) :
    (prLoop ids l).2 = prEntriesOf l := by
  induction l generalizing ids with
  | nil => rfl
  | cons p rest ih =>
    by_cases h : isObjectEntry p = true <;> simp [prLoop, prEntriesOf, h, ih]

theorem prGet_eq_none {s : String} (l : List Json)
    (h : ∀ q ∈ l, pluginIdIs q s = false) : prGet (prEntriesOf l) s = none := by
  induction l with
  | nil => rfl
  | cons q rest ih =>
    have hrest := ih (fun x hx => h x (List.mem_cons_of_mem q hx))
    have hq := h q (List.mem_cons_self q rest)
    by_cases hobj : isObjectEntry q = true
    · simp only [prEntriesOf, hobj, if_true, prGet, hrest]
      cases hid : getField q "id" with
      | none => rfl
      | some j =>
        cases j with
        | str t =>
          have hq' : (t == s) = false := by simpa [pluginIdIs, hid] using hq
          simp [ne_of_beq_false hq']
        | null => rfl
        | bool b => rfl
        | num n => rfl
        | arr l2 => rfl
        | obj l2 => rfl
    · simp [prEntriesOf, hobj, hrest]

/-! ## C5 -/

/-- C5: for every plugin entry of the base document's plugin list that is
truthy and carries a non-empty-string id `s`, if no pr plugin entry has id
`s` then validation reports the `removed` error for `s` and the final result
has `ok = false`, whatever else the pr document contains. -/
theorem removed_plugin_reported (fetchO : String → FetchResponse)
    (hashHex : List Nat → String) (baseIndex prIndex : Json) (s : String) (p : Json)
    (bl : List Json) (hbl : getField baseIndex "plugins" = some (.arr bl)) (hp : p ∈ bl)
    (ht : jsTruthy (some p) = true) (hid : getField p "id" = some (.str s))
    (hs : isNonEmptyString (some (.str s)) = true)
    (habs : ∀ q ∈ prPluginsOf prIndex, pluginIdIs q s = false) :
    ("pr index.json: plugin \"" ++ s ++ "\" removed")
      ∈ (validate fetchO hashHex baseIndex prIndex).errors ∧
    (validate fetchO hashHex baseIndex prIndex).ok = false := by
  have hbase : basePluginsOf baseIndex = bl := by
    show (validateIndexShape baseIndex "base index.json").2 = bl
    rw [validateIndexShape_eq]
    simp [pluginsListOf, hbl]
  have hkey : s ∈ (baseMapOf baseIndex).map Prod.fst := by
    unfold baseMapOf basePluginMapOf
    rw [hbase]
    exact mem_keys_basePluginMapGo [] bl hp hid ht hs
  have hnone : prGet (prLoop [] (prPluginsOf prIndex)).2 s = none := by
    rw [prLoop_snd]
    exact prGet_eq_none _ habs
  have hmem : ("pr index.json: plugin \"" ++ s ++ "\" removed")
      ∈ removalErrors (baseMapOf baseIndex) (prLoop [] (prPluginsOf prIndex)).2 :=
    removalErrors_mem _ hkey (by rw [hnone]; rfl)
  have hmem2 : ("pr index.json: plugin \"" ++ s ++ "\" removed")
      ∈ (validate fetchO hashHex baseIndex prIndex).errors := by
    rw [validate_errors]
    simp only [List.mem_append]
    tauto
  refine ⟨hmem2, ?_⟩
  rw [validate_ok]
  exact isEmpty_false_of_mem hmem2

/-- C5 witness: the concrete base document with plugin `a` against a pr
document with an empty plugin list. -/
theorem removed_plugin_reported_witness :
    ("pr index.json: plugin \"a\" removed")
      ∈ (validate noFetch noHash baseDoc emptyPluginsDoc).errors ∧
    (validate noFetch noHash baseDoc emptyPluginsDoc).ok = false :=
  removed_plugin_reported noFetch noHash baseDoc emptyPluginsDoc "a" pluginA [pluginA]
    rfl (List.mem_singleton.mpr rfl) rfl rfl (by decide)
    (by intro q hq; cases hq)

/-! ## C6 -/

/-- C6 counterexample: a document whose `schemaVersion` check fails (the
error is appended) while `plugins` is a one-entry array; `validateIndexShape`
returns that non-empty plugin list, not an empty one, refuting the claim that
any failing top-level check makes it return an empty list. -/
theorem shape_validator_counterexample :
    (validateIndexShape c6doc "base index.json").1
      = ["base index.json: schemaVersion must be 1"] ∧
    (validateIndexShape c6doc "base index.json").2.isEmpty = false :=
  ⟨rfl, rfl⟩

/-- C6 amended: `validateIndexShape` appends one error for `schemaVersion ≠ 1`
and one for a missing/empty `name`, each independently of the other checks,
and never raises; it returns the document's `plugins` list whenever that
value is an array — even when the other checks failed — and returns the
empty list, stopping further checks, exactly when `plugins` is not an
array. -/
theorem shape_validator_behavior (index : Json) (label : String) :
    validateIndexShape index label =
      (svErrors index label ++ nameReqErrors index label ++ pluginsArrErrors index label,
       pluginsListOf index) :=
  validateIndexShape_eq index label

/-! ## C10 -/

theorem downloadLoopErrors_congr (fetchO₁ fetchO₂ : String → FetchResponse)
    (hashHex : List Nat → String) (l : List Download)
    (h : ∀ d ∈ l, fetchO₁ (jsToString d.url) = fetchO₂ (jsToString d.url)) :
    downloadLoopErrors fetchO₁ hashHex l = downloadLoopErrors fetchO₂ hashHex l := by
  induction l with
  | nil => rfl
  | cons d rest ih =>
    have hd := h d (List.mem_cons_self d rest)
    have hrest := ih (fun x hx => h x (List.mem_cons_of_mem d hx))
    simp only [downloadLoopErrors, hrest, checkDownloadErrors, hd]

/-- C10: validation is deterministic — it is a pure function of the two
documents and of the responses at the fetched urls: two runs whose fetch
oracles agree on every queued url produce identical results (`ok` and the
same error messages in the same order). -/
theorem validation_deterministic (fetchO₁ fetchO₂ : String → FetchResponse)
    (hashHex : List Nat → String) (baseIndex prIndex : Json)
    (h : ∀ d ∈ downloadsOf baseIndex prIndex,
      fetchO₁ (jsToString d.url) = fetchO₂ (jsToString d.url)) :
    validate fetchO₁ hashHex baseIndex prIndex = validate fetchO₂ hashHex baseIndex prIndex := by
  have h7 := downloadLoopErrors_congr fetchO₁ fetchO₂ hashHex (downloadsOf baseIndex prIndex) h
  simp only [validate, h7]

/-- C10 witness: two oracles agreeing on the one queued url (but not
everywhere) give identical results on an append-only change. -/
theorem validation_deterministic_witness :
    (∀ d ∈ downloadsOf baseDoc prDocB,
      okFetch (jsToString d.url) = okFetch2 (jsToString d.url)) ∧
    validate okFetch noHash baseDoc prDocB = validate okFetch2 noHash baseDoc prDocB := by
  have h : ∀ d ∈ downloadsOf baseDoc prDocB,
      okFetch (jsToString d.url) = okFetch2 (jsToString d.url) := by
    intro d hd
    rw [show downloadsOf baseDoc prDocB = [⟨"b/1.0.0", Json.str "https://x/b.tgz", shaB⟩]
      from rfl] at hd
    have hd2 := List.mem_singleton.mp hd
    subst hd2
    rfl
  exact ⟨h, validation_deterministic okFetch okFetch2 noHash baseDoc prDocB h⟩

/-! ## C2 -/

/-- C2 counterexample: `versionBad` is genuinely new (the base has no
plugins) and its `dist` block is malformed (`type` is `"zip"`, `sha256` is
`"00"`, not 64 hex characters) — the shape check fails and its error is
reported — yet the version IS placed on the novelty-download queue with its
`dist.url`, refuting the claim that a malformed `dist` block prevents the
fetch. -/
theorem malformed_dist_queued_counterexample :
    distShapeOk versionBad = false ∧
    ("pr index.json: version \"a/1.0.0\" dist must include type \"tgz\", url, sha256")
      ∈ (validate noFetch noHash emptyPluginsDoc prDocBad).errors ∧
    (downloadsOf emptyPluginsDoc prDocBad).map (fun d => (d.label, jsToString d.url, d.sha256))
      = [("a/1.0.0", "https://x/a.tgz", "00")] :=
  ⟨rfl, by decide, rfl⟩

/-- C2 amended: for a genuinely new version (one whose base lookup misses),
the queueing step ignores the shape checks: even with a malformed `dist`
block the version is queued — and its url later fetched — whenever
`dist?.url` and `dist?.sha256` are both truthy; only a missing `dist` or a
missing/falsy `url` or `sha256` keeps it off the queue. -/
theorem malformed_dist_still_queued (bm : List (String × Json)) (plugin version : Json)
    (seen : List String) (u h : Json)
    (hobj : isObjectEntry version = true)
    (hnew : jsTruthy (versionBaseLookup bm version) = false)
    (hbad : distShapeOk version = false)
    (hu : optChain (getField version "dist") "url" = some u)
    (hut : jsTruthy (some u) = true)
    (hh : optChain (getField version "dist") "sha256" = some h)
    (hht : jsTruthy (some h) = true) :
    (walkVersion bm plugin seen version).2.2
      = [⟨versionLabelOf plugin version, u, jsLower (jsToString h)⟩] := by
  unfold walkVersion
  simp only [hobj, if_true, hnew, Bool.false_eq_true, if_false, queuedOf, hu, hh, hut, hht,
    Bool.and_self, if_true]

/-- C2 witness: the amended statement instantiated at `versionBad` against
an empty base. -/
theorem malformed_dist_still_queued_witness :
    isObjectEntry versionBad = true ∧
    jsTruthy (versionBaseLookup [] versionBad) = false ∧
    distShapeOk versionBad = false ∧
    optChain (getField versionBad "dist") "url" = some (.str "https://x/a.tgz") ∧
    jsTruthy (some (.str "https://x/a.tgz")) = true ∧
    optChain (getField versionBad "dist") "sha256" = some (.str "00") ∧
    jsTruthy (some (.str "00")) = true ∧
    (walkVersion [] pluginBad [] versionBad).2.2
      = [⟨versionLabelOf pluginBad versionBad, .str "https://x/a.tgz", jsLower (jsToString (.str "00"))⟩] :=
  ⟨rfl, rfl, rfl, rfl, rfl, rfl, rfl,
    malformed_dist_still_queued [] pluginBad versionBad [] (.str "https://x/a.tgz") (.str "00")
      rfl rfl rfl rfl rfl rfl rfl⟩

/-! ## C8 -/

theorem walkVersion_mem_of_distError {bm : List (String × Json)} {plugin version : Json}
    {seen : List String} {e : String} (hobj : isObjectEntry version = true)
    (he : e ∈ distErrors version (versionLabelOf plugin version)) :
    e ∈ (walkVersion bm plugin seen version).1 := by
  unfold walkVersion
  simp only [hobj, if_true]
  by_cases hb : jsTruthy (versionBaseLookup bm version) = true <;>
    simp [hb, he]

theorem walkVersions_mem_err {bm : List (String × Json)} {plugin : Json} {e : String}
    (vs : List Json) (seen : List String) (v : Json) (hv : v ∈ vs)
    (he : ∀ s : List String, e ∈ (walkVersion bm plugin s v).1) :
    e ∈ (walkVersions bm plugin seen vs).1 := by
  induction vs generalizing seen with
  | nil => cases hv
  | cons w rest ih =>
    rcases List.mem_cons.mp hv with h | h
    · subst h
      simp only [walkVersions, List.mem_append]
      exact Or.inl (he seen)
    · simp only [walkVersions, List.mem_append]
      exact Or.inr (ih _ h)

theorem walkAll_mem_err {baseMap : List (String × Json)} {plugin : Json} {e : String}
    (l : List Json) (hp : plugin ∈ l) (he : e ∈ (walkPlugin baseMap plugin).1) :
    e ∈ (walkAll baseMap l).1 := by
  induction l with
  | nil => cases hp
  | cons q rest ih =>
    rcases List.mem_cons.mp hp with h | h
    · subst h
      simp only [walkAll, List.mem_append]
      exact Or.inl he
    · simp only [walkAll, List.mem_append]
      exact Or.inr (ih h)

theorem walkPlugin_eq_of_versions {baseMap : List (String × Json)} {plugin : Json}
    {vs : List Json} (hobj : isObjectEntry plugin = true)
    (hvs : getField plugin "versions" = some (.arr vs)) :
    walkPlugin baseMap plugin =
      walkVersions (pluginBaseVersions baseMap plugin) plugin [] vs := by
  unfold walkPlugin
  simp only [hobj, if_true, hvs]

theorem mem_walk_of_version {baseIndex prIndex plugin version : Json} {vs : List Json} {e : String}
    (hp : plugin ∈ prPluginsOf prIndex) (hobjp : isObjectEntry plugin = true)
    (hvs : getField plugin "versions" = some (.arr vs)) (hv : version ∈ vs)
    (hvobj : isObjectEntry version = true)
    (he : e ∈ distErrors version (versionLabelOf plugin version)) :
    e ∈ (walkResultOf baseIndex prIndex).1 := by
  unfold walkResultOf
  refine walkAll_mem_err _ hp ?_
  rw [walkPlugin_eq_of_versions hobjp hvs]
  exact walkVersions_mem_err vs [] version hv
    (fun s => walkVersion_mem_of_distError hvobj he)

/-- C8: a shape-valid `dist` whose url parses with a non-https scheme and a
path not ending in `.tgz` gets two separate errors (one for the scheme, one
for the suffix), both reported by validation; and a shape-valid `dist` whose
url fails to parse gets the `invalid` error instead. -/
theorem dist_url_errors_reported (fetchO : String → FetchResponse)
    (hashHex : List Nat → String) (baseIndex prIndex plugin v w : Json)
    (vs : List Json) (u1 u2 : String) (parsed : JsURL)
    (hp : plugin ∈ prPluginsOf prIndex) (hobjp : isObjectEntry plugin = true)
    (hvs : getField plugin "versions" = some (.arr vs))
    (hv : v ∈ vs) (hvobj : isObjectEntry v = true)
    (hvok : distShapeOk v = true)
    (hvu : optChain (getField v "dist") "url" = some (.str u1))
    (hparse : parseURL u1 = some parsed)
    (hhttps : parsed.protocol ≠ "https:")
    (htgz : jsEndsWith parsed.pathname ".tgz" = false)
    (hw : w ∈ vs) (hwobj : isObjectEntry w = true)
    (hwok : distShapeOk w = true)
    (hwu : optChain (getField w "dist") "url" = some (.str u2))
    (hwparse : parseURL u2 = none) :
    ("pr index.json: version \"" ++ versionLabelOf plugin v ++ "\" dist.url must use https")
      ∈ (validate fetchO hashHex baseIndex prIndex).errors ∧
    ("pr index.json: version \"" ++ versionLabelOf plugin v ++ "\" dist.url must end with .tgz")
      ∈ (validate fetchO hashHex baseIndex prIndex).errors ∧
    ("pr index.json: version \"" ++ versionLabelOf plugin w ++ "\" dist.url is invalid")
      ∈ (validate fetchO hashHex baseIndex prIndex).errors := by
  have hv1 : ("pr index.json: version \"" ++ versionLabelOf plugin v ++ "\" dist.url must use https")
      ∈ distErrors v (versionLabelOf plugin v) := by
    unfold distErrors
    simp only [hvok, if_true, hvu, distUrlErrors, hparse, hhttps, if_false, htgz,
      Bool.false_eq_true, List.mem_append, List.mem_cons]
    tauto
  have hv2 : ("pr index.json: version \"" ++ versionLabelOf plugin v ++ "\" dist.url must end with .tgz")
      ∈ distErrors v (versionLabelOf plugin v) := by
    unfold distErrors
    simp only [hvok, if_true, hvu, distUrlErrors, hparse, hhttps, if_false, htgz,
      Bool.false_eq_true, List.mem_append, List.mem_cons]
    tauto
  have hw1 : ("pr index.json: version \"" ++ versionLabelOf plugin w ++ "\" dist.url is invalid")
      ∈ distErrors w (versionLabelOf plugin w) := by
    unfold distErrors
    simp [hwok, hwu, distUrlErrors, hwparse]
  refine ⟨?_, ?_, ?_⟩ <;>
  · rw [validate_errors]
    simp only [List.mem_append]
    refine Or.inl (Or.inr ?_)
    first
    | exact mem_walk_of_version hp hobjp hvs hv hvobj hv1
    | exact mem_walk_of_version hp hobjp hvs hv hvobj hv2
    | exact mem_walk_of_version hp hobjp hvs hw hwobj hw1

/-- C8 witness: the two-versions pr document, against an empty base — both
url errors fire for version `1.0.0` and the invalid-url error for `2.0.0`. -/
theorem dist_url_errors_reported_witness :
    pluginUrls ∈ prPluginsOf prDocUrls ∧
    ("pr index.json: version \"a/1.0.0\" dist.url must use https")
      ∈ (validate noFetch noHash emptyPluginsDoc prDocUrls).errors ∧
    ("pr index.json: version \"a/1.0.0\" dist.url must end with .tgz")
      ∈ (validate noFetch noHash emptyPluginsDoc prDocUrls).errors ∧
    ("pr index.json: version \"a/2.0.0\" dist.url is invalid")
      ∈ (validate noFetch noHash emptyPluginsDoc prDocUrls).errors := by
  have hp : pluginUrls ∈ prPluginsOf prDocUrls := by
    rw [show prPluginsOf prDocUrls = [pluginUrls] from rfl]
    exact List.mem_singleton.mpr rfl
  have h := dist_url_errors_reported noFetch noHash emptyPluginsDoc prDocUrls pluginUrls
    versionHttp versionUnparsable [versionHttp, versionUnparsable] "http://x/a.txt" "nourl"
    ⟨"http:", "/a.txt"⟩ hp rfl rfl (List.mem_cons_self versionHttp [versionUnparsable]) rfl
    rfl rfl rfl (by decide) rfl
    (List.mem_cons_of_mem versionHttp (List.mem_cons_self versionUnparsable [])) rfl rfl rfl rfl
  exact ⟨hp, h.1, h.2.1, h.2.2⟩

/-! ## C9 -/

theorem basePluginMapGo_skip {p : Json}
    (hex : (jsTruthy (some p) && isNonEmptyString (getField p "id")) = false)
    (A B : List Json) (acc : List (String × Json)) :
    basePluginMapGo acc (A ++ p :: B) = basePluginMapGo acc (A ++ B) := by
  induction A generalizing acc with
  | nil =>
    simp only [List.nil_append]
    cases hid : getField p "id" with
    | none => simp [basePluginMapGo, hid]
    | some j =>
      cases j with
      | str s =>
        rw [hid] at hex
        simp only [basePluginMapGo, hid]
        rw [if_neg]
        intro hcontra
        rw [hcontra] at hex
        cases hex
      | null => simp [basePluginMapGo, hid]
      | bool b => simp [basePluginMapGo, hid]
      | num n => simp [basePluginMapGo, hid]
      | arr l => simp [basePluginMapGo, hid]
      | obj l => simp [basePluginMapGo, hid]
  | cons q rest ih =>
    simp only [List.cons_append]
    cases hq : getField q "id" with
    | none => simp [basePluginMapGo, hq, ih]
    | some j =>
      cases j <;> simp [basePluginMapGo, hq, ih]

/-- C9: a base plugin entry whose `id` is not a non-empty string (missing,
empty, whitespace, or non-string) plays no role in validation: the whole run
produces the same result as if that entry were absent from the base plugin
list — in particular a pr document omitting it gets no `removed` error from
it and none of its versions are compared for immutability. -/
theorem invalid_id_base_plugin_ignored (fetchO : String → FetchResponse)
    (hashHex : List Nat → String) (baseIndex baseIndex' prIndex : Json)
    (A B : List Json) (p : Json)
    (hbl : getField baseIndex "plugins" = some (.arr (A ++ p :: B)))
    (hbl' : getField baseIndex' "plugins" = some (.arr (A ++ B)))
    (hsv : getField baseIndex "schemaVersion" = getField baseIndex' "schemaVersion")
    (hname : getField baseIndex "name" = getField baseIndex' "name")
    (hex : (jsTruthy (some p) && isNonEmptyString (getField p "id")) = false) :
    validate fetchO hashHex baseIndex prIndex = validate fetchO hashHex baseIndex' prIndex := by
  have h1 : (validateIndexShape baseIndex "base index.json").1
      = (validateIndexShape baseIndex' "base index.json").1 := by
    rw [validateIndexShape_eq, validateIndexShape_eq]
    simp only [svErrors, nameReqErrors, pluginsArrErrors, hsv, hname, hbl, hbl']
  have h2 : baseMapOf baseIndex = baseMapOf baseIndex' := by
    unfold baseMapOf basePluginMapOf basePluginsOf
    rw [validateIndexShape_eq, validateIndexShape_eq]
    simp only [pluginsListOf, hbl, hbl']
    exact basePluginMapGo_skip hex A B []
  have h3 : nameErrors baseIndex prIndex = nameErrors baseIndex' prIndex := by
    unfold nameErrors
    rw [hname]
  simp only [validate, walkResultOf, downloadsOf, h1, h2, h3]

/-- C9 witness: the id-less plugin entry in `c9base` is invisible — the run
equals the run on `baseDoc`, which omits it. -/
theorem invalid_id_base_plugin_ignored_witness :
    getField c9base "plugins" = some (.arr ([] ++ pluginNoId :: [pluginA])) ∧
    getField baseDoc "plugins" = some (.arr ([] ++ [pluginA])) ∧
    (jsTruthy (some pluginNoId) && isNonEmptyString (getField pluginNoId "id")) = false ∧
    validate noFetch noHash c9base baseDoc = validate noFetch noHash baseDoc baseDoc :=
  ⟨rfl, rfl, rfl,
    invalid_id_base_plugin_ignored noFetch noHash c9base baseDoc baseDoc [] [pluginA]
      pluginNoId rfl rfl rfl rfl rfl⟩


/-! ## C4: canonicalization is key-order-insensitive -/

theorem charListLe_cons_iff {a b : Char} {as bs : List Char} :
    charListLe (a :: as) (b :: bs) = true ↔ a < b ∨ (a = b ∧ charListLe as bs = true) := by
  by_cases h1 : a < b
  · simp [charListLe, h1]
  · by_cases h2 : b < a
    · have hne : a ≠ b := ne_of_gt h2
      simp [charListLe, h1, h2, hne]
    · have heq : a = b := le_antisymm (not_lt.mp h2) (not_lt.mp h1)
      simp [charListLe, h1, h2, heq]

theorem charListLe_total : ∀ (x y : List Char), charListLe x y = true ∨ charListLe y x = true
  | [], _ => Or.inl rfl
  | _ :: _, [] => Or.inr rfl
  | a :: as, b :: bs => by
    by_cases h1 : a < b
    · exact Or.inl (by simp [charListLe, h1])
    · by_cases h2 : b < a
      · exact Or.inr (by simp [charListLe, h2])
      · have heq : a = b := le_antisymm (not_lt.mp h2) (not_lt.mp h1)
        subst heq
        rcases charListLe_total as bs with h | h
        · exact Or.inl (by rw [charListLe_cons_iff]; exact Or.inr ⟨rfl, h⟩)
        · exact Or.inr (by rw [charListLe_cons_iff]; exact Or.inr ⟨rfl, h⟩)

theorem charListLe_trans : ∀ (x y z : List Char), charListLe x y = true →
    charListLe y z = true → charListLe x z = true
  | [], _, _, _, _ => rfl
  | _ :: _, [], _, h, _ => absurd h (by simp [charListLe])
  | _ :: _, _ :: _, [], _, h => absurd h (by simp [charListLe])
  | a :: as, b :: bs, c :: cs, h1, h2 => by
    rw [charListLe_cons_iff] at h1 h2 ⊢
    rcases h1 with h1 | ⟨h1e, h1r⟩
    · rcases h2 with h2 | ⟨h2e, h2r⟩
      · exact Or.inl (lt_trans h1 h2)
      · exact Or.inl (h2e ▸ h1)
    · rcases h2 with h2 | ⟨h2e, h2r⟩
      · exact Or.inl (h1e ▸ h2)
      · exact Or.inr ⟨h1e.trans h2e, charListLe_trans as bs cs h1r h2r⟩

theorem charListLe_antisymm : ∀ (x y : List Char), charListLe x y = true →
    charListLe y x = true → x = y
  | [], [], _, _ => rfl
  | [], _ :: _, _, h2 => absurd h2 (by simp [charListLe])
  | _ :: _, [], h1, _ => absurd h1 (by simp [charListLe])
  | a :: as, b :: bs, h1, h2 => by
    rw [charListLe_cons_iff] at h1 h2
    rcases h1 with h1 | ⟨h1e, h1r⟩
    · rcases h2 with h2 | ⟨h2e, h2r⟩
      · exact absurd h2 (lt_asymm h1)
      · exact absurd h1 (h2e ▸ lt_irrefl b)
    · rcases h2 with h2 | ⟨h2e, h2r⟩
      · exact absurd h2 (h1e ▸ lt_irrefl a)
      · rw [h1e, charListLe_antisymm as bs h1r h2r]

theorem keyLeB_total (p q : String × Json) : keyLeB p q = true ∨ keyLeB q p = true :=
  charListLe_total p.1.data q.1.data

theorem keyLeB_trans {p q r : String × Json} (h1 : keyLeB p q = true) (h2 : keyLeB q r = true) :
    keyLeB p r = true :=
  charListLe_trans p.1.data q.1.data r.1.data h1 h2

theorem key_eq_of_le_ge {p q : String × Json} (h1 : keyLeB p q = true)
    (h2 : keyLeB q p = true) : p.1 = q.1 := by
  have hd : p.1.data = q.1.data := charListLe_antisymm p.1.data q.1.data h1 h2
  exact congrArg String.mk hd

theorem insertSorted_perm (e : String × Json) (l : List (String × Json)) :
    (insertSorted e l).Perm (e :: l) := by
  induction l with
  | nil => exact List.Perm.refl _
  | cons f rest ih =>
    by_cases h : keyLeB e f = true
    · simp [insertSorted, h]
    · simp only [insertSorted, h, if_false]
      exact (ih.cons f).trans (List.Perm.swap e f rest)

theorem sortFields_perm (l : List (String × Json)) : (sortFields l).Perm l := by
  induction l with
  | nil => exact List.Perm.refl _
  | cons e rest ih =>
    exact (insertSorted_perm e (sortFields rest)).trans (ih.cons e)

theorem insertSorted_sorted (e : String × Json) {l : List (String × Json)}
    (h : List.Pairwise (fun p q => keyLeB p q = true) l) :
    List.Pairwise (fun p q => keyLeB p q = true) (insertSorted e l) := by
  induction l with
  | nil => simp [insertSorted]
  | cons f rest ih =>
    rcases List.pairwise_cons.mp h with ⟨hf, hrest⟩
    by_cases hef : keyLeB e f = true
    · simp only [insertSorted, hef, if_true]
      refine List.pairwise_cons.mpr ⟨?_, h⟩
      intro x hx
      rcases List.mem_cons.mp hx with hx | hx
      · exact hx ▸ hef
      · exact keyLeB_trans hef (hf x hx)
    · simp only [insertSorted, hef, if_false]
      refine List.pairwise_cons.mpr ⟨?_, ih hrest⟩
      intro x hx
      rcases List.mem_cons.mp ((insertSorted_perm e rest).mem_iff.mp hx) with hx | hx
      · rw [hx]
        rcases keyLeB_total e f with ht | ht
        · exact absurd ht hef
        · exact ht
      · exact hf x hx

theorem sortFields_sorted (l : List (String × Json)) :
    List.Pairwise (fun p q => keyLeB p q = true) (sortFields l) := by
  induction l with
  | nil => simp [sortFields]
  | cons e rest ih => exact insertSorted_sorted e ih

theorem sorted_nodup_perm_eq : ∀ {l₁ l₂ : List (String × Json)}, l₁.Perm l₂ →
    List.Pairwise (fun p q => keyLeB p q = true) l₁ →
    List.Pairwise (fun p q => keyLeB p q = true) l₂ →
    (l₁.map Prod.fst).Nodup → l₁ = l₂ := by
  intro l₁
  induction l₁ with
  | nil =>
    intro l₂ hp _ _ _
    exact (hp.symm.eq_nil).symm ▸ rfl
  | cons p t ih =>
    intro l₂ hp hs₁ hs₂ hnd
    cases l₂ with
    | nil => exact absurd hp.eq_nil (by simp)
    | cons q u =>
      have hnd' : (p.1 :: t.map Prod.fst).Nodup := by
        rw [List.map_cons] at hnd
        exact hnd
      by_cases hpq : p = q
      · subst hpq
        have htu : t.Perm u := hp.cons_inv
        have ht : List.Pairwise (fun p q => keyLeB p q = true) t :=
          (List.pairwise_cons.mp hs₁).2
        have hu : List.Pairwise (fun p q => keyLeB p q = true) u :=
          (List.pairwise_cons.mp hs₂).2
        have hndt : (t.map Prod.fst).Nodup := (List.nodup_cons.mp hnd').2
        rw [ih htu ht hu hndt]
      · exfalso
        have hpmem : p ∈ q :: u := hp.subset (List.mem_cons_self p t)
        have hpu : p ∈ u := by
          rcases List.mem_cons.mp hpmem with h | h
          · exact absurd h hpq
          · exact h
        have hqmem : q ∈ p :: t := hp.symm.subset (List.mem_cons_self q u)
        have hqt : q ∈ t := by
          rcases List.mem_cons.mp hqmem with h | h
          · exact absurd h.symm hpq
          · exact h
        have h1 : keyLeB p q = true := (List.pairwise_cons.mp hs₁).1 q hqt
        have h2 : keyLeB q p = true := (List.pairwise_cons.mp hs₂).1 p hpu
        have hkey : p.1 = q.1 := key_eq_of_le_ge h1 h2
        have hnotin : p.1 ∉ t.map Prod.fst := (List.nodup_cons.mp hnd').1
        exact hnotin (hkey ▸ List.mem_map_of_mem Prod.fst hqt)

theorem strNodup_iff (ks : List String) : strNodup ks = true ↔ ks.Nodup := by
  induction ks with
  | nil => simp [strNodup]
  | cons k rest ih =>
    simp [strNodup, List.nodup_cons, ih, List.any_eq_true, Bool.and_eq_true]
    intro _
    constructor
    · intro h hmem
      exact h k hmem rfl
    · intro h x hx hxk
      exact h (hxk ▸ hx)

theorem stableFields_eq (l : List (String × Json)) :
    stableFields l = l.map (fun p => (p.1, stableObject p.2)) := by
  induction l with
  | nil => rfl
  | cons p rest ih =>
    rcases p with ⟨k, v⟩
    simp [stableFields, ih]

theorem stableFields_map_fst (l : List (String × Json)) :
    (stableFields l).map Prod.fst = l.map Prod.fst := by
  rw [stableFields_eq, List.map_map]
  rfl

theorem jdepth_le_of_mem_list {v : Json} : ∀ {l : List Json}, v ∈ l → jdepth v ≤ jdepthList l := by
  intro l
  induction l with
  | nil => intro h; cases h
  | cons w rest ih =>
    intro h
    rcases List.mem_cons.mp h with h | h
    · subst h
      simp [jdepthList]
    · exact le_trans (ih h) (by simp [jdepthList])

theorem jdepth_le_of_mem_fields {v : Json} : ∀ {l : List (String × Json)},
    v ∈ l.map Prod.snd → jdepth v ≤ jdepthFields l := by
  intro l
  induction l with
  | nil => intro h; cases h
  | cons p rest ih =>
    rcases p with ⟨k, w⟩
    intro h
    rcases List.mem_cons.mp h with h | h
    · subst h
      simp [jdepthFields]
    · exact le_trans (ih h) (by simp [jdepthFields])

theorem nodupKeys_of_mem_list {v : Json} : ∀ {l : List Json}, v ∈ l →
    nodupKeysList l = true → nodupKeys v = true := by
  intro l
  induction l with
  | nil => intro h; cases h
  | cons w rest ih =>
    intro h hn
    rcases (show nodupKeys w = true ∧ nodupKeysList rest = true by
      simpa [nodupKeysList] using hn) with ⟨h1, h2⟩
    rcases List.mem_cons.mp h with h | h
    · exact h ▸ h1
    · exact ih h h2

theorem nodupKeys_of_mem_fields {v : Json} : ∀ {l : List (String × Json)},
    v ∈ l.map Prod.snd → nodupKeysFields l = true → nodupKeys v = true := by
  intro l
  induction l with
  | nil => intro h; cases h
  | cons p rest ih =>
    rcases p with ⟨k, w⟩
    intro h hn
    rcases (show nodupKeys w = true ∧ nodupKeysFields rest = true by
      simpa [nodupKeysFields] using hn) with ⟨h1, h2⟩
    rcases List.mem_cons.mp h with h | h
    · exact h ▸ h1
    · exact ih h h2

theorem keyPerm_stableObject : ∀ (n : Nat) (v w : Json), jdepth v ≤ n → KeyPerm v w →
    nodupKeys v = true → stableObject v = stableObject w := by
  intro n
  induction n with
  | zero =>
    intro v w hd h hn
    cases h with
    | null => rfl
    | bool b => rfl
    | num n2 => rfl
    | str s => rfl
    | arr hf => simp [jdepth] at hd
    | obj keq vrel hperm => simp [jdepth] at hd
  | succ n ih =>
    intro v w hd h hn
    cases h with
    | null => rfl
    | bool b => rfl
    | num n2 => rfl
    | str s => rfl
    | @arr l m hf =>
      simp only [stableObject, Json.arr.injEq]
      have hdl : jdepthList l ≤ n := by
        simp only [jdepth] at hd
        omega
      have hnl : nodupKeysList l = true := by simpa [nodupKeys] using hn
      have aux : ∀ (l2 m2 : List Json), List.Forall₂ KeyPerm l2 m2 →
          jdepthList l2 ≤ n → nodupKeysList l2 = true → stableList l2 = stableList m2 := by
        intro l2 m2 hf2
        induction hf2 with
        | nil => intro _ _; rfl
        | @cons a b l3 m3 hab hrest ihf =>
          intro hdl2 hnl2
          simp only [jdepthList] at hdl2
          rcases (show nodupKeys a = true ∧ nodupKeysList l3 = true by
            simpa [nodupKeysList] using hnl2) with ⟨hn1, hn2⟩
          simp only [stableList]
          rw [ih a b (le_trans (le_max_left _ _) hdl2) hab hn1,
            ihf (le_trans (le_max_right _ _) hdl2) hn2]
      exact aux l m hf hdl hnl
    | @obj l m m' keq vrel hperm =>
      simp only [stableObject, Json.obj.injEq]
      rcases (show strNodup (l.map Prod.fst) = true ∧ nodupKeysFields l = true by
        simpa [nodupKeys] using hn) with ⟨hndk, hnf⟩
      have hdf : jdepthFields l ≤ n := by
        simp only [jdepth] at hd
        omega
      have aux : ∀ (l2 : List (String × Json)) (m2 : List (String × Json)),
          l2.map Prod.fst = m2.map Prod.fst →
          List.Forall₂ KeyPerm (l2.map Prod.snd) (m2.map Prod.snd) →
          jdepthFields l2 ≤ n → nodupKeysFields l2 = true →
          stableFields l2 = stableFields m2 := by
        intro l2
        induction l2 with
        | nil =>
          intro m2 hkeq _ _ _
          cases m2 with
          | nil => rfl
          | cons q u => simp at hkeq
        | cons p t ihl =>
          intro m2 hkeq hvrel hdf2 hnf2
          cases m2 with
          | nil => simp at hkeq
          | cons q u =>
            rcases p with ⟨pk, pv⟩
            rcases q with ⟨qk, qv⟩
            simp only [List.map_cons, List.cons.injEq] at hkeq
            rcases hkeq with ⟨hk, hks⟩
            rw [List.map_cons, List.map_cons] at hvrel
            rcases List.forall₂_cons.mp hvrel with ⟨hpq, hrest⟩
            simp only [jdepthFields] at hdf2
            rcases (show nodupKeys pv = true ∧ nodupKeysFields t = true by
              simpa [nodupKeysFields] using hnf2) with ⟨hn1, hn2⟩
            simp only [stableFields]
            rw [hk, ih pv qv (le_trans (le_max_left _ _) hdf2) hpq hn1,
              ihl u hks hrest (le_trans (le_max_right _ _) hdf2) hn2]
      have h1 : stableFields l = stableFields m := aux l m keq vrel hdf hnf
      have hX : (stableFields m).Perm (stableFields m') := by
        rw [stableFields_eq, stableFields_eq]
        exact hperm.map _
      have h2 : sortFields (stableFields m) = sortFields (stableFields m') := by
        apply sorted_nodup_perm_eq
        · exact ((sortFields_perm _).trans hX).trans (sortFields_perm _).symm
        · exact sortFields_sorted _
        · exact sortFields_sorted _
        · have hkeys : ((sortFields (stableFields m)).map Prod.fst).Nodup := by
            have hpermk : ((sortFields (stableFields m)).map Prod.fst).Perm (l.map Prod.fst) := by
              have := (sortFields_perm (stableFields m)).map Prod.fst
              rw [stableFields_map_fst, ← keq] at this
              exact this
            rw [hpermk.nodup_iff]
            exact (strNodup_iff _).mp hndk
          exact hkeys
      rw [h1, h2]

/-- C4: `stableStringify` is invariant under recursively permuting the keys
of any objects of a value (scalars and array order unchanged), for values
whose objects have duplicate-free keys — which is every value `JSON.parse`
can produce.  Consequently an unchanged existing version whose keys are
merely reordered canonicalizes identically, so the `modifies existing
version` comparison cannot fire for it. -/
theorem stableStringify_key_perm (v w : Json) (hperm : KeyPerm v w)
    (hnd : nodupKeys v = true) : stableStringify v = stableStringify w := by
  unfold stableStringify
  rw [keyPerm_stableObject (jdepth v) v w le_rfl hperm hnd]

/-- C4 witness: the two nested objects `c4v`, `c4w` that differ only by key
order canonicalize to the same string. -/
theorem stableStringify_key_perm_witness :
    KeyPerm c4v c4w ∧ nodupKeys c4v = true ∧ stableStringify c4v = stableStringify c4w := by
  have hinner : KeyPerm (Json.obj [("y", Json.arr [Json.bool true]), ("x", Json.str "s")])
      (Json.obj [("x", Json.str "s"), ("y", Json.arr [Json.bool true])]) := by
    refine @KeyPerm.obj [("y", Json.arr [Json.bool true]), ("x", Json.str "s")]
      [("y", Json.arr [Json.bool true]), ("x", Json.str "s")]
      [("x", Json.str "s"), ("y", Json.arr [Json.bool true])] rfl ?_
      (List.Perm.swap ("x", Json.str "s") ("y", Json.arr [Json.bool true]) [])
    exact List.Forall₂.cons (KeyPerm.arr (List.Forall₂.cons (KeyPerm.bool true) List.Forall₂.nil))
      (List.Forall₂.cons (KeyPerm.str "s") List.Forall₂.nil)
  have hperm : KeyPerm c4v c4w := by
    refine @KeyPerm.obj
      [("b", Json.num 1), ("a", Json.obj [("y", Json.arr [Json.bool true]), ("x", Json.str "s")])]
      [("b", Json.num 1), ("a", Json.obj [("x", Json.str "s"), ("y", Json.arr [Json.bool true])])]
      [("a", Json.obj [("x", Json.str "s"), ("y", Json.arr [Json.bool true])]), ("b", Json.num 1)]
      rfl ?_
      (List.Perm.swap ("a", Json.obj [("x", Json.str "s"), ("y", Json.arr [Json.bool true])])
        ("b", Json.num 1) [])
    exact List.Forall₂.cons (KeyPerm.num 1) (List.Forall₂.cons hinner List.Forall₂.nil)
  exact ⟨hperm, rfl, stableStringify_key_perm c4v c4w hperm rfl⟩

/-! ## C7: uppercase sha256 accepted, compared after lower-casing -/

theorem toLower_hex {c : Char} (hc : c ∈ hexCIChars) :
    ((Char.toLower c).isDigit
      || (decide ('a' ≤ Char.toLower c) && decide (Char.toLower c ≤ 'f'))) = true := by
  fin_cases hc <;> decide

theorem bne_empty_of_data_ne {s : String} (h : s.data ≠ []) : (s != "") = true := by
  have hne : s ≠ "" := by
    intro he
    rw [he] at h
    exact h rfl
  simpa using hne

theorem bne_empty_of_isNonEmptyString {s : String}
    (h : isNonEmptyString (some (.str s)) = true) : (s != "") = true := by
  have h2 : s.data.any (fun c => !c.isWhitespace) = true := h
  rcases List.any_eq_true.mp h2 with ⟨c, hc, _⟩
  apply bne_empty_of_data_ne
  intro he
  rw [he] at hc
  cases hc

theorem isValidSha256_jsLower {h : String} (hlen : h.data.length = 64)
    (hhex : ∀ c ∈ h.data, c ∈ hexCIChars) : isValidSha256 (jsLower h) = true := by
  unfold isValidSha256 jsLower
  rw [Bool.and_eq_true]
  constructor
  · simp [List.length_map, hlen]
  · rw [List.all_eq_true]
    intro x hx
    rcases List.mem_map.mp hx with ⟨c, hc, rfl⟩
    exact toLower_hex (hhex c hc)

theorem queuedOf_eq {plugin v dj : Json} {u sh : String}
    (hdist : getField v "dist" = some dj) (hurl : getField dj "url" = some (.str u))
    (hsha : getField dj "sha256" = some (.str sh)) (hu : (u != "") = true)
    (hsh : (sh != "") = true) :
    queuedOf plugin v = [⟨versionLabelOf plugin v, .str u, jsLower sh⟩] := by
  unfold queuedOf optChain
  simp only [hdist, hurl, hsha, jsTruthy, hu, hsh, Bool.and_self, if_true, jsToString]

theorem distShapeOk_eq_true {v dj : Json} {u sh : String}
    (hdist : getField v "dist" = some dj) (hdt : jsTruthy (some dj) = true)
    (htype : getField dj "type" = some (.str "tgz"))
    (hurl : getField dj "url" = some (.str u)) (hut : isNonEmptyString (some (.str u)) = true)
    (hsha : getField dj "sha256" = some (.str sh)) (hsh : (sh != "") = true)
    (hvalid : isValidSha256 (jsLower sh) = true) : distShapeOk v = true := by
  simp only [distShapeOk, optChain, jsStringOrEmpty]
  rw [hdist, hdt]
  simp [htype, hurl, hsha, hut, hsh, hvalid, jsTruthy, jsTemplate, jsToString]

theorem walkVersion_dl_eq_queued {bm : List (String × Json)} {plugin v : Json}
    {seen : List String} (hobj : isObjectEntry v = true)
    (hnew : jsTruthy (versionBaseLookup bm v) = false) :
    (walkVersion bm plugin seen v).2.2 = queuedOf plugin v := by
  unfold walkVersion
  simp only [hobj, if_true, hnew, Bool.false_eq_true, if_false]

theorem walkVersions_mem_dl {bm : List (String × Json)} {plugin : Json} {d : Download}
    (vs : List Json) (seen : List String) (v : Json) (hv : v ∈ vs)
    (hd : ∀ s : List String, d ∈ (walkVersion bm plugin s v).2.2) :
    d ∈ (walkVersions bm plugin seen vs).2 := by
  induction vs generalizing seen with
  | nil => cases hv
  | cons w rest ih =>
    rcases List.mem_cons.mp hv with h | h
    · subst h
      simp only [walkVersions, List.mem_append]
      exact Or.inl (hd seen)
    · simp only [walkVersions, List.mem_append]
      exact Or.inr (ih _ h)

theorem walkAll_mem_dl {baseMap : List (String × Json)} {plugin : Json} {d : Download}
    (l : List Json) (hp : plugin ∈ l) (hd : d ∈ (walkPlugin baseMap plugin).2) :
    d ∈ (walkAll baseMap l).2 := by
  induction l with
  | nil => cases hp
  | cons q rest ih =>
    rcases List.mem_cons.mp hp with h | h
    · subst h
      simp only [walkAll, List.mem_append]
      exact Or.inl hd
    · simp only [walkAll, List.mem_append]
      exact Or.inr (ih h)

/-- C7: a pr version whose `dist.sha256` is a 64-character hex string with
uppercase letters passes the sha256 shape check (its lower-cased form is a
valid sha256, and the combined dist shape check succeeds, so no format error
is reported); when the version is genuinely new it is queued with the
lower-cased sha256, and `checkDownload` compares the computed digest of the
fetched body against exactly that lower-cased value. -/
theorem uppercase_sha_accepted (fetchO : String → FetchResponse)
    (hashHex : List Nat → String) (baseIndex prIndex plugin v dj : Json)
    (vs : List Json) (u sh : String)
    (hp : plugin ∈ prPluginsOf prIndex) (hobjp : isObjectEntry plugin = true)
    (hvs : getField plugin "versions" = some (.arr vs))
    (hv : v ∈ vs) (hvobj : isObjectEntry v = true)
    (hdist : getField v "dist" = some dj) (hdt : jsTruthy (some dj) = true)
    (htype : getField dj "type" = some (.str "tgz"))
    (hurl : getField dj "url" = some (.str u))
    (hut : isNonEmptyString (some (.str u)) = true)
    (hsha : getField dj "sha256" = some (.str sh))
    (hlen : sh.data.length = 64)
    (hhex : ∀ c ∈ sh.data, c ∈ hexCIChars)
    (hupper : ∃ c ∈ sh.data, c.isUpper = true)
    (hnew : jsTruthy
      (versionBaseLookup (pluginBaseVersions (baseMapOf baseIndex) plugin) v) = false) :
    isValidSha256 (jsLower sh) = true ∧
    distShapeOk v = true ∧
    (⟨versionLabelOf plugin v, .str u, jsLower sh⟩ : Download)
      ∈ downloadsOf baseIndex prIndex ∧
    checkDownloadErrors fetchO hashHex ⟨versionLabelOf plugin v, .str u, jsLower sh⟩ =
      (if (fetchO u).ok then
        (if hashHex (fetchO u).body = jsLower sh then []
         else ["dist sha256 mismatch for \"" ++ versionLabelOf plugin v ++ "\""])
       else
        ["dist download failed for \"" ++ versionLabelOf plugin v ++ "\": " ++
          toString (fetchO u).status ++ " " ++ (fetchO u).statusText]) := by
  have hshne : (sh != "") = true := by
    apply bne_empty_of_data_ne
    intro he
    rw [he] at hlen
    cases hlen
  have hune : (u != "") = true := bne_empty_of_isNonEmptyString hut
  have hvalid : isValidSha256 (jsLower sh) = true := isValidSha256_jsLower hlen hhex
  refine ⟨hvalid, distShapeOk_eq_true hdist hdt htype hurl hut hsha hshne hvalid, ?_, rfl⟩
  show _ ∈ (walkAll (baseMapOf baseIndex) (prPluginsOf prIndex)).2
  refine walkAll_mem_dl _ hp ?_
  rw [walkPlugin_eq_of_versions hobjp hvs]
  refine walkVersions_mem_dl vs [] v hv ?_
  intro s
  rw [walkVersion_dl_eq_queued hvobj hnew, queuedOf_eq hdist hurl hsha hune hshne]
  exact List.mem_singleton.mpr rfl

/-- C7 witness: the concrete uppercase-sha version `versionUp` of new plugin
`b`, against `baseDoc`. -/
theorem uppercase_sha_accepted_witness :
    (∀ c ∈ shaUpper.data, c ∈ hexCIChars) ∧
    (∃ c ∈ shaUpper.data, c.isUpper = true) ∧
    isValidSha256 (jsLower shaUpper) = true ∧
    distShapeOk versionUp = true ∧
    (⟨"b/1.0.0", .str "https://x/b.tgz", jsLower shaUpper⟩ : Download)
      ∈ downloadsOf baseDoc prDocUp := by
  have hp : pluginUp ∈ prPluginsOf prDocUp := by
    rw [show prPluginsOf prDocUp = [pluginA, pluginUp] from rfl]
    exact List.mem_cons_of_mem pluginA (List.mem_cons_self pluginUp [])
  have h := uppercase_sha_accepted noFetch noHash baseDoc prDocUp pluginUp versionUp distUp
    [versionUp] "https://x/b.tgz" shaUpper hp rfl rfl (List.mem_cons_self versionUp [])
    rfl rfl rfl rfl rfl rfl rfl (by decide) (by decide) (by decide) rfl
  exact ⟨by decide, by decide, h.1, h.2.1, h.2.2.1⟩

/-! ## C1: deleting an existing version from a retained plugin -/

theorem mapGet_mapSet_self (m : List (String × Json)) (k : String) (v : Json) :
    mapGet (mapSet m k v) k = some v := by
  unfold mapGet
  induction m with
  | nil => simp [mapSet, lookupField]
  | cons hd tl ih =>
    rcases hd with ⟨k₀, v₀⟩
    by_cases h : k₀ = k
    · subst h
      simp [mapSet, lookupField]
    · simp [mapSet, lookupField, h, ih]

theorem mapGet_mapSet_ne (m : List (String × Json)) (k : String) (v : Json) {t : String}
    (h : t ≠ k) : mapGet (mapSet m k v) t = mapGet m t := by
  unfold mapGet
  induction m with
  | nil => simp [mapSet, lookupField, Ne.symm h]
  | cons hd tl ih =>
    rcases hd with ⟨k₀, v₀⟩
    by_cases hk : k₀ = k
    · subst hk
      simp [mapSet, lookupField, Ne.symm h]
    · by_cases hkt : k₀ = t
      · subst hkt
        simp [mapSet, hk, lookupField]
      · simp [mapSet, hk, lookupField, hkt, ih]

theorem basePluginMapGo_append (acc : List (String × Json)) (l₁ l₂ : List Json) :
    basePluginMapGo acc (l₁ ++ l₂) = basePluginMapGo (basePluginMapGo acc l₁) l₂ := by
  induction l₁ generalizing acc with
  | nil => rfl
  | cons p rest ih =>
    cases hid : getField p "id" with
    | none => simp [basePluginMapGo, hid, ih]
    | some j => cases j <;> simp [basePluginMapGo, hid, ih] <;> split <;> simp [ih]

theorem baseVersionsGo_append (acc : List (String × Json)) (l₁ l₂ : List Json) :
    baseVersionsGo acc (l₁ ++ l₂) = baseVersionsGo (baseVersionsGo acc l₁) l₂ := by
  induction l₁ generalizing acc with
  | nil => rfl
  | cons p rest ih =>
    cases hid : getField p "version" with
    | none => simp [baseVersionsGo, hid, ih]
    | some j => cases j <;> simp [baseVersionsGo, hid, ih] <;> split <;> simp [ih]

theorem keys_mapSet_congr {m₁ m₂ : List (String × Json)} (k : String) (v₁ v₂ : Json)
    (h : m₁.map Prod.fst = m₂.map Prod.fst) :
    (mapSet m₁ k v₁).map Prod.fst = (mapSet m₂ k v₂).map Prod.fst := by
  induction m₁ generalizing m₂ with
  | nil =>
    cases m₂ with
    | nil => rfl
    | cons q u => simp at h
  | cons p t ih =>
    cases m₂ with
    | nil => simp at h
    | cons q u =>
      rcases p with ⟨pk, pv⟩
      rcases q with ⟨qk, qv⟩
      simp only [List.map_cons, List.cons.injEq] at h
      rcases h with ⟨hk, hks⟩
      subst hk
      by_cases hpk : pk = k <;> simp [mapSet, hpk, ih hks, hks]

theorem basePluginMapGo_keys_congr {m₁ m₂ : List (String × Json)} (l : List Json)
    (h : m₁.map Prod.fst = m₂.map Prod.fst) :
    (basePluginMapGo m₁ l).map Prod.fst = (basePluginMapGo m₂ l).map Prod.fst := by
  induction l generalizing m₁ m₂ with
  | nil => exact h
  | cons p rest ih =>
    cases hid : getField p "id" with
    | none => simp only [basePluginMapGo, hid]; exact ih h
    | some j =>
      cases j <;> simp only [basePluginMapGo, hid]
      case str s =>
        split
        · exact ih (keys_mapSet_congr s p p h)
        · exact ih h
      all_goals exact ih h

theorem basePluginMapGo_get_congr {m₁ m₂ : List (String × Json)} {s : String} (l : List Json)
    (h : ∀ t, t ≠ s → mapGet m₁ t = mapGet m₂ t) :
    ∀ t, t ≠ s → mapGet (basePluginMapGo m₁ l) t = mapGet (basePluginMapGo m₂ l) t := by
  induction l generalizing m₁ m₂ with
  | nil => exact h
  | cons p rest ih =>
    cases hid : getField p "id" with
    | none => simp only [basePluginMapGo, hid]; exact ih h
    | some j =>
      cases j <;> simp only [basePluginMapGo, hid]
      case str k =>
        split
        · refine ih ?_
          intro t ht
          by_cases htk : t = k
          · subst htk
            rw [mapGet_mapSet_self, mapGet_mapSet_self]
          · rw [mapGet_mapSet_ne _ _ _ htk, mapGet_mapSet_ne _ _ _ htk]
            exact h t ht
        · exact ih h
      all_goals exact ih h

theorem basePluginMapGo_get_skip {s : String} (l : List Json) (acc : List (String × Json))
    (h : ∀ q ∈ l, pluginIdIs q s = false) :
    mapGet (basePluginMapGo acc l) s = mapGet acc s := by
  induction l generalizing acc with
  | nil => rfl
  | cons p rest ih =>
    have hrest := fun q hq => h q (List.mem_cons_of_mem p hq)
    have hp := h p (List.mem_cons_self p rest)
    cases hid : getField p "id" with
    | none => simp only [basePluginMapGo, hid]; exact ih _ hrest
    | some j =>
      cases j <;> simp only [basePluginMapGo, hid]
      case str k =>
        have hks : k ≠ s := by
          simp only [pluginIdIs, hid] at hp
          exact ne_of_beq_false hp
        split
        · rw [ih _ hrest, mapGet_mapSet_ne _ _ _ (Ne.symm hks)]
        · exact ih _ hrest
      all_goals exact ih _ hrest

theorem baseVersionsGo_get_congr {acc₁ acc₂ : List (String × Json)} {u : String}
    (l : List Json) (h : ∀ t, t ≠ u → mapGet acc₁ t = mapGet acc₂ t) :
    ∀ t, t ≠ u → mapGet (baseVersionsGo acc₁ l) t = mapGet (baseVersionsGo acc₂ l) t := by
  induction l generalizing acc₁ acc₂ with
  | nil => exact h
  | cons p rest ih =>
    cases hid : getField p "version" with
    | none => simp only [baseVersionsGo, hid]; exact ih h
    | some j =>
      cases j <;> simp only [baseVersionsGo, hid]
      case str k =>
        split
        · refine ih ?_
          intro t ht
          by_cases htk : t = k
          · subst htk
            rw [mapGet_mapSet_self, mapGet_mapSet_self]
          · rw [mapGet_mapSet_ne _ _ _ htk, mapGet_mapSet_ne _ _ _ htk]
            exact h t ht
        · exact ih h
      all_goals exact ih h

theorem removalErrors_congr_keys {m₁ m₂ : List (String × Json)}
    (e : List (Option Json × Json)) (h : m₁.map Prod.fst = m₂.map Prod.fst) :
    removalErrors m₁ e = removalErrors m₂ e := by
  induction m₁ generalizing m₂ with
  | nil =>
    cases m₂ with
    | nil => rfl
    | cons q u => simp at h
  | cons p t ih =>
    cases m₂ with
    | nil => simp at h
    | cons q u =>
      rcases p with ⟨pk, pv⟩
      rcases q with ⟨qk, qv⟩
      simp only [List.map_cons, List.cons.injEq] at h
      rcases h with ⟨hk, hks⟩
      subst hk
      simp only [removalErrors, ih hks]

theorem walkVersion_congr_bm {bm₁ bm₂ : List (String × Json)} {plugin x : Json}
    {seen : List String} (h : versionBaseLookup bm₁ x = versionBaseLookup bm₂ x) :
    walkVersion bm₁ plugin seen x = walkVersion bm₂ plugin seen x := by
  unfold walkVersion
  rw [h]

theorem walkVersions_congr_bm {bm₁ bm₂ : List (String × Json)} {plugin : Json}
    (vs : List Json) (seen : List String)
    (h : ∀ x ∈ vs, versionBaseLookup bm₁ x = versionBaseLookup bm₂ x) :
    walkVersions bm₁ plugin seen vs = walkVersions bm₂ plugin seen vs := by
  induction vs generalizing seen with
  | nil => rfl
  | cons x rest ih =>
    have hx := h x (List.mem_cons_self x rest)
    have hrest := fun y hy => h y (List.mem_cons_of_mem x hy)
    simp only [walkVersions, walkVersion_congr_bm hx, ih _ hrest]

/-- C1 counterexample: the pr document `baseDoc` omits version `2.0.0`,
which exists in `c1base`'s plugin `a` — an existing Version is deleted — yet
validation reports no error at all and the result has `ok = true`, refuting
the claim that such a deletion is reported. -/
theorem deleted_version_unreported :
    (validate noFetch noHash c1base baseDoc).ok = true ∧
    (validate noFetch noHash c1base baseDoc).errors = [] :=
  ⟨rfl, rfl⟩

/-- C1 amended: the validator does not check for deleted versions.  When
every pr plugin carrying the base plugin's id `s` omits the version string
`u`, the whole run is indistinguishable from a run whose base never
contained that version: both produce identical results, so no error is
reported for the omission and `ok` can be `true`.  (Whole-plugin removal is
still reported, and versions present in both documents are still compared.) -/
theorem deleted_version_invisible (fetchO : String → FetchResponse)
    (hashHex : List Nat → String) (baseIndex baseIndex2 prIndex : Json)
    (A B : List Json) (bp bp2 w : Json) (VA VB : List Json) (s u : String)
    (hbl : getField baseIndex "plugins" = some (.arr (A ++ bp :: B)))
    (hbl2 : getField baseIndex2 "plugins" = some (.arr (A ++ bp2 :: B)))
    (hsv : getField baseIndex "schemaVersion" = getField baseIndex2 "schemaVersion")
    (hname : getField baseIndex "name" = getField baseIndex2 "name")
    (htr : jsTruthy (some bp) = true) (htr2 : jsTruthy (some bp2) = true)
    (hid : getField bp "id" = some (.str s)) (hid2 : getField bp2 "id" = some (.str s))
    (hsne : isNonEmptyString (some (.str s)) = true)
    (hvs : getField bp "versions" = some (.arr (VA ++ w :: VB)))
    (hvs2 : getField bp2 "versions" = some (.arr (VA ++ VB)))
    (hw : getField w "version" = some (.str u))
    (hAB : ∀ q ∈ A ++ B, pluginIdIs q s = false)
    (hpr : ∀ q ∈ prPluginsOf prIndex, pluginIdIs q s = true →
      ∀ vsq, getField q "versions" = some (.arr vsq) → ∀ x ∈ vsq, versionStrIs x u = false) :
    validate fetchO hashHex baseIndex prIndex = validate fetchO hashHex baseIndex2 prIndex := by
  have hbpl : basePluginsOf baseIndex = A ++ bp :: B := by
    show (validateIndexShape baseIndex "base index.json").2 = _
    rw [validateIndexShape_eq]
    simp [pluginsListOf, hbl]
  have hbpl2 : basePluginsOf baseIndex2 = A ++ bp2 :: B := by
    show (validateIndexShape baseIndex2 "base index.json").2 = _
    rw [validateIndexShape_eq]
    simp [pluginsListOf, hbl2]
  have hsplit : baseMapOf baseIndex = basePluginMapGo (mapSet (basePluginMapGo [] A) s bp) B := by
    unfold baseMapOf basePluginMapOf
    rw [hbpl, basePluginMapGo_append]
    simp only [basePluginMapGo, hid, htr, hsne, Bool.and_self, if_true]
  have hsplit2 : baseMapOf baseIndex2
      = basePluginMapGo (mapSet (basePluginMapGo [] A) s bp2) B := by
    unfold baseMapOf basePluginMapOf
    rw [hbpl2, basePluginMapGo_append]
    simp only [basePluginMapGo, hid2, htr2, hsne, Bool.and_self, if_true]
  have hkeys : (baseMapOf baseIndex).map Prod.fst = (baseMapOf baseIndex2).map Prod.fst := by
    rw [hsplit, hsplit2]
    exact basePluginMapGo_keys_congr B (keys_mapSet_congr s bp bp2 rfl)
  have hget : ∀ t, t ≠ s →
      mapGet (baseMapOf baseIndex) t = mapGet (baseMapOf baseIndex2) t := by
    rw [hsplit, hsplit2]
    exact basePluginMapGo_get_congr B
      (fun t ht => by rw [mapGet_mapSet_ne _ _ _ ht, mapGet_mapSet_ne _ _ _ ht])
  have hgetS : mapGet (baseMapOf baseIndex) s = some bp := by
    rw [hsplit, basePluginMapGo_get_skip B _ (fun q hq => hAB q (List.mem_append_right A hq))]
    exact mapGet_mapSet_self _ s bp
  have hgetS2 : mapGet (baseMapOf baseIndex2) s = some bp2 := by
    rw [hsplit2, basePluginMapGo_get_skip B _ (fun q hq => hAB q (List.mem_append_right A hq))]
    exact mapGet_mapSet_self _ s bp2
  have hbm : ∀ t, t ≠ u →
      mapGet (baseVersionsOf (some bp)) t = mapGet (baseVersionsOf (some bp2)) t := by
    intro t ht
    simp only [baseVersionsOf, optChain, htr, htr2, if_true, hvs, hvs2]
    rw [baseVersionsGo_append, baseVersionsGo_append]
    by_cases hin : (jsTruthy (some w) && isNonEmptyString (some (.str u))) = true
    · simp only [baseVersionsGo, hw, hin, if_true]
      refine baseVersionsGo_get_congr VB ?_ t ht
      intro t2 ht2
      rw [mapGet_mapSet_ne _ _ _ ht2]
    · rw [Bool.not_eq_true] at hin
      simp only [baseVersionsGo, hw, hin, Bool.false_eq_true, if_false]
  have hplug : ∀ q, (pluginIdIs q s = true →
      ∀ vsq, getField q "versions" = some (.arr vsq) → ∀ x ∈ vsq, versionStrIs x u = false) →
      walkPlugin (baseMapOf baseIndex) q = walkPlugin (baseMapOf baseIndex2) q := by
    intro q hq
    by_cases hobj : isObjectEntry q = true
    · unfold walkPlugin
      simp only [hobj, if_true]
      cases hqv : getField q "versions" with
      | none => rfl
      | some j =>
        cases j with
        | arr vsq =>
          unfold pluginBaseVersions
          cases hqid : getField q "id" with
          | none => rfl
          | some j2 =>
            cases j2 with
            | str t =>
              show walkVersions (baseVersionsOf (mapGet (baseMapOf baseIndex) t)) q [] vsq
                = walkVersions (baseVersionsOf (mapGet (baseMapOf baseIndex2) t)) q [] vsq
              by_cases hts : t = s
              · subst hts
                rw [hgetS, hgetS2]
                apply walkVersions_congr_bm vsq []
                intro x hx
                unfold versionBaseLookup
                cases hxv : getField x "version" with
                | none => rfl
                | some j3 =>
                  cases j3 with
                  | str t2 =>
                    have hfalse : versionStrIs x u = false :=
                      hq (by simp [pluginIdIs, hqid]) vsq hqv x hx
                    have ht2u : t2 ≠ u := by
                      simp only [versionStrIs, hxv] at hfalse
                      exact ne_of_beq_false hfalse
                    exact hbm t2 ht2u
                  | null => rfl
                  | bool b => rfl
                  | num n => rfl
                  | arr l3 => rfl
                  | obj l3 => rfl
              · rw [hget t hts]
            | null => rfl
            | bool b => rfl
            | num n => rfl
            | arr l2 => rfl
            | obj l2 => rfl
        | null => rfl
        | bool b => rfl
        | num n => rfl
        | str s2 => rfl
        | obj l2 => rfl
    · unfold walkPlugin
      simp only [hobj, Bool.false_eq_true, if_false]
  have hwalkAll : walkAll (baseMapOf baseIndex) (prPluginsOf prIndex)
      = walkAll (baseMapOf baseIndex2) (prPluginsOf prIndex) := by
    revert hpr
    generalize prPluginsOf prIndex = L
    intro hpr
    induction L with
    | nil => rfl
    | cons q rest ih =>
      simp only [walkAll]
      rw [hplug q (hpr q (List.mem_cons_self q rest)),
        ih (fun r hr => hpr r (List.mem_cons_of_mem q hr))]
  have h1 : (validateIndexShape baseIndex "base index.json").1
      = (validateIndexShape baseIndex2 "base index.json").1 := by
    rw [validateIndexShape_eq, validateIndexShape_eq]
    simp only [svErrors, nameReqErrors, pluginsArrErrors, hsv, hname, hbl, hbl2]
  have h3 : nameErrors baseIndex prIndex = nameErrors baseIndex2 prIndex := by
    unfold nameErrors
    rw [hname]
  have h5 : removalErrors (baseMapOf baseIndex) (prLoop [] (prPluginsOf prIndex)).2
      = removalErrors (baseMapOf baseIndex2) (prLoop [] (prPluginsOf prIndex)).2 :=
    removalErrors_congr_keys _ hkeys
  simp only [validate, walkResultOf, downloadsOf, h1, h3, h5, hwalkAll]

/-- C1 witness: deleting version `2.0.0` of plugin `a` behaves exactly like
a base that never had it. -/
theorem deleted_version_invisible_witness :
    getField c1base "plugins" = some (.arr ([] ++ pluginA2 :: [])) ∧
    getField baseDoc "plugins" = some (.arr ([] ++ pluginA :: [])) ∧
    getField pluginA2 "versions" = some (.arr ([versionA] ++ versionA2 :: [])) ∧
    getField pluginA "versions" = some (.arr ([versionA] ++ [])) ∧
    getField versionA2 "version" = some (.str "2.0.0") ∧
    validate noFetch noHash c1base baseDoc = validate noFetch noHash baseDoc baseDoc := by
  refine ⟨rfl, rfl, rfl, rfl, rfl, ?_⟩
  refine deleted_version_invisible noFetch noHash c1base baseDoc baseDoc [] [] pluginA2
    pluginA versionA2 [versionA] [] "a" "2.0.0" rfl rfl rfl rfl rfl rfl rfl rfl rfl rfl rfl rfl
    (by intro q hq; cases hq) ?_
  intro q hq hqid vsq heq x hx
  rw [show prPluginsOf baseDoc = [pluginA] from rfl] at hq
  have hq2 := List.mem_singleton.mp hq
  subst hq2
  have h3 : [versionA] = vsq := Json.arr.inj (Option.some.inj heq)
  subst h3
  have h4 := List.mem_singleton.mp hx
  subst h4
  rfl

/-- C3 counterexample: changing one byte of an existing version's
`dist.sha256` to `'z'` (a non-hex byte) produces TWO errors — the dist shape
error and the modifies-existing-version error — not exactly one, refuting
the claim for arbitrary one-byte changes. -/
theorem sha_byte_change_two_errors :
    (validate noFetch noHash baseDoc c3pr).errors =
      ["pr index.json: version \"a/1.0.0\" dist must include type \"tgz\", url, sha256",
       "pr index.json: version \"a/1.0.0\" modifies existing version"] ∧
    (validate noFetch noHash baseDoc c3pr).ok = false :=
  ⟨rfl, rfl⟩

theorem getField_setField_ne {j : Json} {k k' : String} (v : Json) (h : k' ≠ k) :
    getField (setField j k v) k' = getField j k' := by
  cases j with
  | obj f =>
    show lookupField (setFields f k v) k' = lookupField f k'
    induction f with
    | nil => rfl
    | cons p rest ih =>
      rcases p with ⟨k₀, v₀⟩
      by_cases hk : k₀ = k
      · subst hk
        simp [setFields, lookupField, fun he : k₀ = k' => h he.symm, Ne.symm h]
      · by_cases hk' : k₀ = k'
        · subst hk'
          simp [setFields, hk, lookupField]
        · simp [setFields, hk, lookupField, hk', ih]
  | null => rfl
  | bool b => rfl
  | num n => rfl
  | str s => rfl
  | arr l => rfl

theorem lookupField_split {f : List (String × Json)} {k : String} {x : Json}
    (h : lookupField f k = some x) :
    ∃ pre post, f = pre ++ (k, x) :: post ∧ (∀ p ∈ pre, p.1 ≠ k) ∧
      ∀ v, setFields f k v = pre ++ (k, v) :: post := by
  induction f with
  | nil => cases h
  | cons p rest ih =>
    rcases p with ⟨k₀, v₀⟩
    by_cases hk : k₀ = k
    · subst hk
      have hx : v₀ = x := by
        simpa [lookupField] using h
      subst hx
      refine ⟨[], rest, by simp, by simp, ?_⟩
      intro v
      simp [setFields]
    · have h2 : lookupField rest k = some x := by
        simpa [lookupField, hk] using h
      rcases ih h2 with ⟨pre, post, hf, hpre, hset⟩
      refine ⟨(k₀, v₀) :: pre, post, by simp [hf], ?_, ?_⟩
      · intro p hp
        rcases List.mem_cons.mp hp with hp | hp
        · rw [hp]
          exact hk
        · exact hpre p hp
      · intro v
        simp [setFields, hk, hset v]

theorem obj_of_getField {j : Json} {k : String} {x : Json} (h : getField j k = some x) :
    isObjectEntry j = true := by
  cases j <;> first | rfl | cases h

theorem uint32_le_iff {a b : UInt32} : a ≤ b ↔ a.toNat ≤ b.toNat := by
  rw [UInt32.le_def, BitVec.le_def]
  exact Iff.rfl

theorem char_le_toNat {a b : Char} : a ≤ b ↔ a.toNat ≤ b.toNat := by
  rw [Char.le_def, uint32_le_iff]
  exact Iff.rfl

theorem hexCI_of_lower_hex {c : Char}
    (h : ((Char.toLower c).isDigit
      || (decide ('a' ≤ Char.toLower c) && decide (Char.toLower c ≤ 'f'))) = true) :
    c ∈ hexCIChars := by
  by_cases hrange : c.toNat ≥ 65 ∧ c.toNat ≤ 90
  · obtain ⟨n, hn⟩ : ∃ n, c.toNat = n := ⟨_, rfl⟩
    have h65 : 65 ≤ n := hn ▸ hrange.1
    have h90 : n ≤ 90 := hn ▸ hrange.2
    have hc : Char.ofNat n = c := by
      rw [← hn]
      exact Char.ofNat_toNat c
    interval_cases n <;> (subst hc; revert h; decide)
  · have hlc : Char.toLower c = c := by
      simp only [Char.toLower]
      rw [if_neg hrange]
    rw [hlc] at h
    rcases (show c.isDigit = true ∨ (decide ('a' ≤ c) && decide (c ≤ 'f')) = true by
      simpa using h) with hd | haf
    · have h1 : (decide (48 ≤ c.val) && decide (c.val ≤ 57)) = true := hd
      rcases (show decide (48 ≤ c.val) = true ∧ decide (c.val ≤ 57) = true by
        simpa using h1) with ⟨ha, hb⟩
      have ha2 : (48 : Nat) ≤ c.toNat := uint32_le_iff.mp (of_decide_eq_true ha)
      have hb2 : c.toNat ≤ (57 : Nat) := uint32_le_iff.mp (of_decide_eq_true hb)
      obtain ⟨n, hn⟩ : ∃ n, c.toNat = n := ⟨_, rfl⟩
      rw [hn] at ha2 hb2
      have hc : Char.ofNat n = c := by
        rw [← hn]
        exact Char.ofNat_toNat c
      interval_cases n <;> (subst hc; decide)
    · rcases (show decide ('a' ≤ c) = true ∧ decide (c ≤ 'f') = true by
        simpa using haf) with ⟨ha, hb⟩
      have ha2 : (97 : Nat) ≤ c.toNat := char_le_toNat.mp (of_decide_eq_true ha)
      have hb2 : c.toNat ≤ (102 : Nat) := char_le_toNat.mp (of_decide_eq_true hb)
      obtain ⟨n, hn⟩ : ∃ n, c.toNat = n := ⟨_, rfl⟩
      rw [hn] at ha2 hb2
      have hc : Char.ofNat n = c := by
        rw [← hn]
        exact Char.ofNat_toNat c
      interval_cases n <;> (subst hc; decide)

theorem str_ext {a b : String} (h : a.data = b.data) : a = b := by
  cases a
  cases b
  exact congrArg String.mk h

theorem str_data_append (a b : String) : (a ++ b).data = a.data ++ b.data := by
  cases a
  cases b
  rfl

theorem str_append_cancel_left {a b c : String} (h : a ++ b = a ++ c) : b = c := by
  have h2 : a.data ++ b.data = a.data ++ c.data := by
    rw [← str_data_append, ← str_data_append, h]
  exact str_ext (List.append_cancel_left h2)

theorem str_append_cancel_right {a b c : String} (h : a ++ c = b ++ c) : a = b := by
  have h2 : a.data ++ c.data = b.data ++ c.data := by
    rw [← str_data_append, ← str_data_append, h]
  exact str_ext (List.append_cancel_right h2)

theorem str_append_assoc (a b c : String) : a ++ b ++ c = a ++ (b ++ c) := by
  apply str_ext
  simp only [str_data_append, List.append_assoc]

theorem str_empty_append (s : String) : "" ++ s = s := by
  apply str_ext
  rw [str_data_append]
  rfl

theorem joinStrings_cons_ne (sep x : String) {l : List String} (h : l ≠ []) :
    joinStrings sep (x :: l) = x ++ sep ++ joinStrings sep l := by
  cases l with
  | nil => exact absurd rfl h
  | cons y ys => rfl

theorem joinStrings_split : ∀ (X l : List String), l ≠ [] →
    joinStrings "," (X ++ l) =
      (X.map (fun e => e ++ ",")).foldr (fun a b => a ++ b) "" ++ joinStrings "," l := by
  intro X
  induction X with
  | nil =>
    intro l h
    rw [List.nil_append, List.map_nil, List.foldr_nil]
    exact (str_empty_append _).symm
  | cons x X ih =>
    intro l h
    have hne : X ++ l ≠ [] := by
      intro hc
      rcases List.append_eq_nil.mp hc with ⟨h1, h2⟩
      exact h h2
    rw [List.cons_append, joinStrings_cons_ne _ _ hne, ih l h, List.map_cons, List.foldr_cons]
    simp only [str_append_assoc]

theorem joinStrings_cancel_mid {X Y : List String} {a b : String}
    (h : joinStrings "," (X ++ a :: Y) = joinStrings "," (X ++ b :: Y)) : a = b := by
  rw [joinStrings_split X (a :: Y) (by simp), joinStrings_split X (b :: Y) (by simp)] at h
  have h2 := str_append_cancel_left h
  cases Y with
  | nil => exact h2
  | cons y ys =>
    rw [@joinStrings_cons_ne "," a (y :: ys) (by simp),
      @joinStrings_cons_ne "," b (y :: ys) (by simp)] at h2
    exact str_append_cancel_right (str_append_cancel_right h2)

theorem keyLeB_congr_fst {p q : String × Json} (h : p.1 = q.1) (r : String × Json) :
    keyLeB p r = keyLeB q r ∧ keyLeB r p = keyLeB r q := by
  unfold keyLeB
  rw [h]
  exact ⟨rfl, rfl⟩

theorem insertSorted_mid {p q : String × Json} (h : p.1 = q.1)
    (l : List (String × Json)) : ∃ E F,
      insertSorted p l = E ++ p :: F ∧ insertSorted q l = E ++ q :: F := by
  induction l with
  | nil => exact ⟨[], [], rfl, rfl⟩
  | cons f rest ih =>
    cases hle : keyLeB p f with
    | true =>
      have hle2 : keyLeB q f = true := by
        rw [← (keyLeB_congr_fst h f).1]
        exact hle
      exact ⟨[], f :: rest, by simp [insertSorted, hle], by simp [insertSorted, hle2]⟩
    | false =>
      have hle2 : keyLeB q f = false := by
        rw [← (keyLeB_congr_fst h f).1]
        exact hle
      rcases ih with ⟨E, F, h1, h2⟩
      exact ⟨f :: E, F, by simp [insertSorted, hle, h1], by simp [insertSorted, hle2, h2]⟩

theorem insertSorted_into_split (e : String × Json) {p q : String × Json} (h : p.1 = q.1) :
    ∀ (E F : List (String × Json)), ∃ E₂ F₂,
      insertSorted e (E ++ p :: F) = E₂ ++ p :: F₂ ∧
      insertSorted e (E ++ q :: F) = E₂ ++ q :: F₂ := by
  intro E
  induction E with
  | nil =>
    intro F
    cases hle : keyLeB e p with
    | true =>
      have hle2 : keyLeB e q = true := by
        rw [← (keyLeB_congr_fst h e).2]
        exact hle
      exact ⟨[e], F, by simp [insertSorted, hle], by simp [insertSorted, hle2]⟩
    | false =>
      have hle2 : keyLeB e q = false := by
        rw [← (keyLeB_congr_fst h e).2]
        exact hle
      exact ⟨[], insertSorted e F, by simp [insertSorted, hle], by simp [insertSorted, hle2]⟩
  | cons f E ih =>
    intro F
    rcases ih F with ⟨E₂, F₂, h1, h2⟩
    cases hle : keyLeB e f with
    | true =>
      exact ⟨e :: f :: E, F, by simp [insertSorted, hle], by simp [insertSorted, hle]⟩
    | false =>
      exact ⟨f :: E₂, F₂, by simp [insertSorted, hle, h1], by simp [insertSorted, hle, h2]⟩

theorem sortFields_split {p q : String × Json} (h : p.1 = q.1) :
    ∀ (E F : List (String × Json)), ∃ E₂ F₂,
      sortFields (E ++ p :: F) = E₂ ++ p :: F₂ ∧
      sortFields (E ++ q :: F) = E₂ ++ q :: F₂ := by
  intro E
  induction E with
  | nil =>
    intro F
    rcases insertSorted_mid h (sortFields F) with ⟨E₂, F₂, h1, h2⟩
    refine ⟨E₂, F₂, ?_, ?_⟩
    · rw [List.nil_append]
      exact h1
    · rw [List.nil_append]
      exact h2
  | cons e E ih =>
    intro F
    rcases ih F with ⟨E₁, F₁, h1, h2⟩
    rcases insertSorted_into_split e h E₁ F₁ with ⟨E₂, F₂, h3, h4⟩
    refine ⟨E₂, F₂, ?_, ?_⟩
    · show insertSorted e (sortFields (E ++ p :: F)) = E₂ ++ p :: F₂
      rw [h1]
      exact h3
    · show insertSorted e (sortFields (E ++ q :: F)) = E₂ ++ q :: F₂
      rw [h2]
      exact h4

theorem quoteChar_hexCI {c : Char} (h : c ∈ hexCIChars) : quoteChar c = [c] := by
  fin_cases h <;> decide

theorem flatMap_quoteChar_id {l : List Char} (h : ∀ c ∈ l, quoteChar c = [c]) :
    l.flatMap quoteChar = l := by
  induction l with
  | nil => rfl
  | cons c cs ih =>
    rw [List.flatMap_cons, h c (List.mem_cons_self c cs),
      ih (fun d hd => h d (List.mem_cons_of_mem c hd))]
    rfl

theorem quoteStr_inj_hexCI {s t : String} (hs : ∀ c ∈ s.data, c ∈ hexCIChars)
    (ht : ∀ c ∈ t.data, c ∈ hexCIChars) (h : quoteStr s = quoteStr t) : s = t := by
  have hds : s.data.flatMap quoteChar = s.data :=
    flatMap_quoteChar_id (fun c hc => quoteChar_hexCI (hs c hc))
  have hdt : t.data.flatMap quoteChar = t.data :=
    flatMap_quoteChar_id (fun c hc => quoteChar_hexCI (ht c hc))
  have h2 : ('"' :: s.data.flatMap quoteChar ++ ['"'] : List Char)
      = '"' :: t.data.flatMap quoteChar ++ ['"'] := congrArg String.data h
  rw [hds, hdt] at h2
  have h2c := congrArg List.tail h2
  simp only [List.cons_append, List.tail_cons] at h2c
  exact str_ext (List.append_cancel_right h2c)

theorem sha_chars_hexCI {s : String} (h : isValidSha256 (jsLower s) = true) :
    ∀ c ∈ s.data, c ∈ hexCIChars := by
  intro c hc
  rcases (show decide ((jsLower s).data.length = 64) = true ∧
      ((jsLower s).data.all
        (fun c => c.isDigit || (decide ('a' ≤ c) && decide (c ≤ 'f')))) = true by
    simpa [isValidSha256] using h) with ⟨-, h2⟩
  have h3 : Char.toLower c ∈ (jsLower s).data := by
    show Char.toLower c ∈ s.data.map Char.toLower
    exact List.mem_map_of_mem Char.toLower hc
  have h4 := List.all_eq_true.mp h2 (Char.toLower c) h3
  exact hexCI_of_lower_hex (by simpa using h4)

theorem serializeFields_append (l₁ l₂ : List (String × Json)) :
    serializeFields (l₁ ++ l₂) = serializeFields l₁ ++ serializeFields l₂ := by
  induction l₁ with
  | nil => rfl
  | cons p rest ih =>
    rcases p with ⟨k, v⟩
    show (quoteStr k ++ ":" ++ serializeJson v) :: serializeFields (rest ++ l₂)
      = ((quoteStr k ++ ":" ++ serializeJson v) :: serializeFields rest) ++ serializeFields l₂
    rw [ih]
    rfl

theorem stableFields_append (l₁ l₂ : List (String × Json)) :
    stableFields (l₁ ++ l₂) = stableFields l₁ ++ stableFields l₂ := by
  rw [stableFields_eq, stableFields_eq, stableFields_eq, List.map_append]

theorem stableStringify_obj_cancel {P Q : List (String × Json)} {k : String} {x y : Json}
    (h : stableStringify (.obj (P ++ (k, x) :: Q)) = stableStringify (.obj (P ++ (k, y) :: Q))) :
    serializeJson (stableObject x) = serializeJson (stableObject y) := by
  have hfx : stableFields (P ++ (k, x) :: Q)
      = stableFields P ++ (k, stableObject x) :: stableFields Q := by
    rw [stableFields_append]
    simp only [stableFields]
  have hfy : stableFields (P ++ (k, y) :: Q)
      = stableFields P ++ (k, stableObject y) :: stableFields Q := by
    rw [stableFields_append]
    simp only [stableFields]
  rcases @sortFields_split (k, stableObject x) (k, stableObject y) rfl
    (stableFields P) (stableFields Q) with ⟨E₂, F₂, hsx, hsy⟩
  have h3 : serializeJson (Json.obj (sortFields (stableFields (P ++ (k, x) :: Q))))
      = serializeJson (Json.obj (sortFields (stableFields (P ++ (k, y) :: Q)))) := by
    have h0 := h
    simp only [stableStringify, stableObject] at h0
    exact h0
  rw [hfx, hfy, hsx, hsy] at h3
  have h2b : "\x7b" ++ joinStrings "," (serializeFields (E₂ ++ (k, stableObject x) :: F₂))
        ++ "\x7d"
      = "\x7b" ++ joinStrings "," (serializeFields (E₂ ++ (k, stableObject y) :: F₂))
        ++ "\x7d" := by
    simpa only [serializeJson] using h3
  have h4 := str_append_cancel_left (str_append_cancel_right h2b)
  rw [serializeFields_append, serializeFields_append] at h4
  have hcx : serializeFields ((k, stableObject x) :: F₂)
      = (quoteStr k ++ ":" ++ serializeJson (stableObject x)) :: serializeFields F₂ := rfl
  have hcy : serializeFields ((k, stableObject y) :: F₂)
      = (quoteStr k ++ ":" ++ serializeJson (stableObject y)) :: serializeFields F₂ := rfl
  rw [hcx, hcy] at h4
  exact str_append_cancel_left (joinStrings_cancel_mid h4)

theorem stable_ne_of_sha_change {v dj : Json} {s t : String}
    (hdj : getField v "dist" = some dj)
    (hsha : getField dj "sha256" = some (.str s))
    (hs : ∀ c ∈ s.data, c ∈ hexCIChars)
    (ht : ∀ c ∈ t.data, c ∈ hexCIChars)
    (hne : s ≠ t) :
    stableStringify (setField v "dist" (setField dj "sha256" (.str t)))
      ≠ stableStringify v := by
  intro hcontra
  cases v with
  | obj vf =>
    cases dj with
    | obj djf =>
      have hdj2 : lookupField vf "dist" = some (Json.obj djf) := hdj
      rcases lookupField_split hdj2 with ⟨pre, post, hvf, hpre, hset⟩
      have hsha2 : lookupField djf "sha256" = some (Json.str s) := hsha
      rcases lookupField_split hsha2 with ⟨pre2, post2, hdjf, hpre2, hset2⟩
      have hc0 : stableStringify (Json.obj (setFields vf "dist"
            (setField (Json.obj djf) "sha256" (Json.str t))))
          = stableStringify (Json.obj vf) := hcontra
      rw [hset, hvf] at hc0
      have hc1 := stableStringify_obj_cancel hc0
      have hc2 : stableStringify (Json.obj (setFields djf "sha256" (Json.str t)))
          = stableStringify (Json.obj djf) := hc1
      rw [hset2, hdjf] at hc2
      have hc3 := stableStringify_obj_cancel hc2
      have hc4 : quoteStr t = quoteStr s := hc3
      exact hne (quoteStr_inj_hexCI hs ht hc4.symm)
    | null => exact Option.noConfusion hsha
    | bool b => exact Option.noConfusion hsha
    | num n => exact Option.noConfusion hsha
    | str s2 => exact Option.noConfusion hsha
    | arr l => exact Option.noConfusion hsha
  | null => exact Option.noConfusion hdj
  | bool b => exact Option.noConfusion hdj
  | num n => exact Option.noConfusion hdj
  | str s2 => exact Option.noConfusion hdj
  | arr l => exact Option.noConfusion hdj

theorem getElemQ_set_self {α : Type} : ∀ (l : List α) (k : Nat) (c : α),
    k < l.length → (l.set k c)[k]? = some c := by
  intro l
  induction l with
  | nil =>
    intro k c h
    exact absurd h (Nat.not_lt_zero k)
  | cons a as ih =>
    intro k c h
    cases k with
    | zero => simp
    | succ n =>
      simpa using ih n c (Nat.lt_of_succ_lt_succ h)

theorem str_ne_of_set_byte {s t : String} {k : Nat} {c : Char}
    (hk : k < s.data.length) (htd : t.data = s.data.set k c)
    (hc : s.data[k]? ≠ some c) : s ≠ t := by
  intro he
  subst he
  rw [htd] at hc
  exact hc (getElemQ_set_self s.data k c hk)

theorem downloadLoopErrors_noFetch_nil {hh : List Nat → String} {l : List Download}
    (h : downloadLoopErrors noFetch hh l = []) : l = [] := by
  cases l with
  | nil => rfl
  | cons d rest =>
    exfalso
    have h2 : checkDownloadErrors noFetch hh d ++ downloadLoopErrors noFetch hh rest = [] := h
    rcases List.append_eq_nil.mp h2 with ⟨h3, h4⟩
    have h5 : ["dist download failed for \"" ++ d.label ++ "\": "
        ++ toString (404 : Nat) ++ " " ++ "Not Found"] = ([] : List String) := h3
    cases h5

theorem lookupField_append_skip {pre : List (String × Json)} {k : String}
    (h : ∀ p ∈ pre, p.1 ≠ k) (v : Json) (post : List (String × Json)) :
    lookupField (pre ++ (k, v) :: post) k = some v := by
  induction pre with
  | nil => simp [lookupField]
  | cons p rest ih =>
    rcases p with ⟨k₀, v₀⟩
    have hk : k₀ ≠ k := h (k₀, v₀) (List.mem_cons_self _ _)
    simp only [List.cons_append, lookupField, hk, if_false]
    exact ih (fun q hq => h q (List.mem_cons_of_mem _ hq))

theorem getField_setField_self {j : Json} {k : String} {x : Json}
    (h : getField j k = some x) (v : Json) : getField (setField j k v) k = some v := by
  cases j with
  | obj f =>
    have h2 : lookupField f k = some x := h
    rcases lookupField_split h2 with ⟨pre, post, hf, hpre, hset⟩
    show lookupField (setFields f k v) k = some v
    rw [hset v]
    exact lookupField_append_skip hpre v post
  | null => exact Option.noConfusion h
  | bool b => exact Option.noConfusion h
  | num n => exact Option.noConfusion h
  | str s => exact Option.noConfusion h
  | arr l => exact Option.noConfusion h

theorem svErrors_elim {i : Json} {l : String} (h : svErrors i l = []) :
    getField i "schemaVersion" = some (.num 1) := by
  unfold svErrors at h
  split at h
  · rename_i heq
    exact heq
  · simp at h

theorem svErrors_nil_of {i : Json} (h : getField i "schemaVersion" = some (.num 1))
    (l : String) : svErrors i l = [] := by
  simp [svErrors, h]

theorem nameReqErrors_elim {i : Json} {l : String} (h : nameReqErrors i l = []) :
    isNonEmptyString (getField i "name") = true := by
  unfold nameReqErrors at h
  cases hx : isNonEmptyString (getField i "name") with
  | true => rfl
  | false =>
    rw [hx] at h
    simp at h

theorem nameReqErrors_nil_of {i : Json} (h : isNonEmptyString (getField i "name") = true)
    (l : String) : nameReqErrors i l = [] := by
  simp [nameReqErrors, h]

theorem pluginsArrErrors_nil_of {i : Json} {pl : List Json}
    (h : getField i "plugins" = some (.arr pl)) (l : String) : pluginsArrErrors i l = [] := by
  simp [pluginsArrErrors, h]

theorem pluginsListOf_of {i : Json} {pl : List Json}
    (h : getField i "plugins" = some (.arr pl)) : pluginsListOf i = pl := by
  simp [pluginsListOf, h]

theorem isNonEmptyString_elim {v : Option Json} (h : isNonEmptyString v = true) :
    ∃ s : String, v = some (.str s) ∧ (s != "") = true := by
  cases v with
  | none => exact Bool.noConfusion h
  | some j =>
    cases j with
    | str s => exact ⟨s, rfl, bne_empty_of_isNonEmptyString h⟩
    | null => exact Bool.noConfusion h
    | bool b => exact Bool.noConfusion h
    | num n => exact Bool.noConfusion h
    | arr l => exact Bool.noConfusion h
    | obj f => exact Bool.noConfusion h

theorem prLoop_cons_obj {p : Json} (h : isObjectEntry p = true) (ids : List String)
    (rest : List Json) :
    prLoop ids (p :: rest) = (prPluginCheckErrors ids p ++ (prLoop (prIdsStep ids p) rest).1,
      (getField p "id", p) :: (prLoop (prIdsStep ids p) rest).2) := by
  simp [prLoop, h]

theorem prLoop_cons_nonobj {p : Json} (h : isObjectEntry p = false) (ids : List String)
    (rest : List Json) :
    prLoop ids (p :: rest) = ("pr index.json: plugin entry must be an object"
      :: (prLoop ids rest).1, (prLoop ids rest).2) := by
  simp [prLoop, h]

theorem prLoop_congr_mid {bp bp2 : Json} (B : List Json)
    (hobj : isObjectEntry bp = isObjectEntry bp2)
    (hchk : ∀ ids, prPluginCheckErrors ids bp = prPluginCheckErrors ids bp2)
    (hstep : ∀ ids, prIdsStep ids bp = prIdsStep ids bp2) :
    ∀ (A : List Json) (ids : List String),
      (prLoop ids (A ++ bp :: B)).1 = (prLoop ids (A ++ bp2 :: B)).1 := by
  intro A
  induction A with
  | nil =>
    intro ids
    show (prLoop ids (bp :: B)).1 = (prLoop ids (bp2 :: B)).1
    cases ho : isObjectEntry bp with
    | true =>
      have ho2 : isObjectEntry bp2 = true := by
        rw [← hobj]
        exact ho
      rw [prLoop_cons_obj ho, prLoop_cons_obj ho2]
      show prPluginCheckErrors ids bp ++ (prLoop (prIdsStep ids bp) B).1 = _
      rw [hchk ids, hstep ids]
    | false =>
      have ho2 : isObjectEntry bp2 = false := by
        rw [← hobj]
        exact ho
      rw [prLoop_cons_nonobj ho, prLoop_cons_nonobj ho2]
  | cons a A ih =>
    intro ids
    show (prLoop ids (a :: (A ++ bp :: B))).1 = (prLoop ids (a :: (A ++ bp2 :: B))).1
    cases ho : isObjectEntry a with
    | true =>
      rw [prLoop_cons_obj ho, prLoop_cons_obj ho]
      show prPluginCheckErrors ids a ++ (prLoop (prIdsStep ids a) (A ++ bp :: B)).1 = _
      rw [ih (prIdsStep ids a)]
    | false =>
      rw [prLoop_cons_nonobj ho, prLoop_cons_nonobj ho]
      show "pr index.json: plugin entry must be an object" :: (prLoop ids (A ++ bp :: B)).1 = _
      rw [ih ids]

theorem prEntriesOf_cons_obj {p : Json} (h : isObjectEntry p = true) (rest : List Json) :
    prEntriesOf (p :: rest) = (getField p "id", p) :: prEntriesOf rest := by
  simp [prEntriesOf, h]

theorem prEntriesOf_cons_nonobj {p : Json} (h : isObjectEntry p = false) (rest : List Json) :
    prEntriesOf (p :: rest) = prEntriesOf rest := by
  simp [prEntriesOf, h]

theorem prGet_entries_mid {bp bp2 : Json} {pid : String} (B : List Json)
    (hid : getField bp "id" = some (.str pid)) (hid2 : getField bp2 "id" = some (.str pid))
    (hobj : isObjectEntry bp = true) (hobj2 : isObjectEntry bp2 = true) :
    ∀ (A : List Json) (s : String),
      (prGet (prEntriesOf (A ++ bp :: B)) s = some bp ∧
        prGet (prEntriesOf (A ++ bp2 :: B)) s = some bp2) ∨
      prGet (prEntriesOf (A ++ bp :: B)) s = prGet (prEntriesOf (A ++ bp2 :: B)) s := by
  intro A
  induction A with
  | nil =>
    intro s
    rw [List.nil_append, List.nil_append, prEntriesOf_cons_obj hobj,
      prEntriesOf_cons_obj hobj2, hid, hid2]
    cases hrest : prGet (prEntriesOf B) s with
    | some q =>
      right
      simp [prGet, hrest]
    | none =>
      by_cases hps : pid = s
      · left
        constructor
        · simp [prGet, hrest, hps]
        · simp [prGet, hrest, hps]
      · right
        simp [prGet, hrest, hps]
  | cons a A ih =>
    intro s
    rw [List.cons_append, List.cons_append]
    cases ha : isObjectEntry a with
    | true =>
      rw [prEntriesOf_cons_obj ha, prEntriesOf_cons_obj ha]
      rcases ih s with ⟨h1, h2⟩ | heq
      · left
        constructor
        · simp [prGet, h1]
        · simp [prGet, h2]
      · right
        cases hr : prGet (prEntriesOf (A ++ bp :: B)) s with
        | some q =>
          have hr2 : prGet (prEntriesOf (A ++ bp2 :: B)) s = some q := by
            rw [← heq]
            exact hr
          simp [prGet, hr, hr2]
        | none =>
          have hr2 : prGet (prEntriesOf (A ++ bp2 :: B)) s = none := by
            rw [← heq]
            exact hr
          simp [prGet, hr, hr2]
    | false =>
      rw [prEntriesOf_cons_nonobj ha, prEntriesOf_cons_nonobj ha]
      exact ih s

theorem removalErrors_congr_truthy {e₁ e₂ : List (Option Json × Json)}
    (h : ∀ s, jsTruthy (prGet e₁ s) = jsTruthy (prGet e₂ s)) (bm : List (String × Json)) :
    removalErrors bm e₁ = removalErrors bm e₂ := by
  induction bm with
  | nil => rfl
  | cons p rest ih =>
    rcases p with ⟨id, v⟩
    simp only [removalErrors, h id, ih]

theorem walkVersion_congr_plugin {p₁ p₂ x : Json} {bm : List (String × Json)}
    {seen : List String} (h : getField p₁ "id" = getField p₂ "id") :
    walkVersion bm p₁ seen x = walkVersion bm p₂ seen x := by
  simp only [walkVersion, versionLabelOf, versionStringErrors, queuedOf, h]

theorem walkVersions_congr_plugin {p₁ p₂ : Json} {bm : List (String × Json)}
    (h : getField p₁ "id" = getField p₂ "id") :
    ∀ (vs : List Json) (seen : List String),
      walkVersions bm p₁ seen vs = walkVersions bm p₂ seen vs := by
  intro vs
  induction vs with
  | nil =>
    intro seen
    rfl
  | cons x rest ih =>
    intro seen
    simp only [walkVersions, walkVersion_congr_plugin h, ih]

theorem walkAll_append (bm : List (String × Json)) (l₁ l₂ : List Json) :
    walkAll bm (l₁ ++ l₂)
      = ((walkAll bm l₁).1 ++ (walkAll bm l₂).1, (walkAll bm l₁).2 ++ (walkAll bm l₂).2) := by
  induction l₁ with
  | nil => simp [walkAll]
  | cons p rest ih =>
    simp only [List.cons_append, walkAll, List.append_eq]
    rw [ih]
    simp [List.append_assoc]

theorem baseVersionsGo_get_skip {s : String} (l : List Json) (acc : List (String × Json))
    (h : ∀ w ∈ l, versionStrIs w s = false) :
    mapGet (baseVersionsGo acc l) s = mapGet acc s := by
  induction l generalizing acc with
  | nil => rfl
  | cons p rest ih =>
    have hrest := fun q hq => h q (List.mem_cons_of_mem p hq)
    have hp := h p (List.mem_cons_self p rest)
    cases hid : getField p "version" with
    | none =>
      simp only [baseVersionsGo, hid]
      exact ih _ hrest
    | some j =>
      cases j <;> simp only [baseVersionsGo, hid]
      case str k =>
        have hks : k ≠ s := by
          simp only [versionStrIs, hid] at hp
          exact ne_of_beq_false hp
        split
        · rw [ih _ hrest, mapGet_mapSet_ne _ _ _ (Ne.symm hks)]
        · exact ih _ hrest
      all_goals exact ih _ hrest

theorem walkVersions_cons (bm : List (String × Json)) (plugin : Json) (seen : List String)
    (v : Json) (rest : List Json) :
    walkVersions bm plugin seen (v :: rest)
      = ((walkVersion bm plugin seen v).1
          ++ (walkVersions bm plugin (walkVersion bm plugin seen v).2.1 rest).1,
         (walkVersion bm plugin seen v).2.2
          ++ (walkVersions bm plugin (walkVersion bm plugin seen v).2.1 rest).2) := by
  simp [walkVersions]

theorem walkVersion_hit {bm : List (String × Json)} {plugin version bv : Json}
    {seen : List String} (hobj : isObjectEntry version = true)
    (hbv : versionBaseLookup bm version = some bv) (htr : jsTruthy (some bv) = true) :
    walkVersion bm plugin seen version =
      ((versionStringErrors seen plugin version (versionLabelOf plugin version)).1
        ++ entryErrors version (versionLabelOf plugin version)
        ++ distErrors version (versionLabelOf plugin version)
        ++ permissionsErrors version (versionLabelOf plugin version)
        ++ (if stableStringify bv = stableStringify version then []
            else ["pr index.json: version \"" ++ versionLabelOf plugin version
              ++ "\" modifies existing version"]),
       (versionStringErrors seen plugin version (versionLabelOf plugin version)).2, []) := by
  simp only [walkVersion, hobj, hbv, htr, Option.getD_some, if_true]

theorem entryErrors_congr {v₁ v₂ : Json} (h : getField v₁ "entry" = getField v₂ "entry")
    (l : String) : entryErrors v₁ l = entryErrors v₂ l := by
  unfold entryErrors
  rw [h]

theorem permissionsErrors_congr {v₁ v₂ : Json}
    (h : getField v₁ "permissions" = getField v₂ "permissions") (l : String) :
    permissionsErrors v₁ l = permissionsErrors v₂ l := by
  unfold permissionsErrors
  rw [h]

theorem walkVersions_sha_replace {bvm : List (String × Json)} {bp v dj : Json}
    {pid vstr s t : String}
    (hpid : isNonEmptyString (some (.str pid)) = true)
    (hid : getField bp "id" = some (.str pid))
    (hvv : getField v "version" = some (.str vstr))
    (hvstr : isNonEmptyString (some (.str vstr)) = true)
    (hbv : mapGet bvm vstr = some v)
    (hdj : getField v "dist" = some dj)
    (hsha : getField dj "sha256" = some (.str s))
    (ht : isValidSha256 (jsLower t) = true)
    (hne : s ≠ t) :
    ∀ (VA : List Json) (seen : List String) (VB : List Json),
      walkVersions bvm bp seen (VA ++ v :: VB) = ([], []) →
      walkVersions bvm bp seen
          (VA ++ setField v "dist" (setField dj "sha256" (Json.str t)) :: VB)
        = (["pr index.json: version \"" ++ (pid ++ "/" ++ vstr)
            ++ "\" modifies existing version"], []) := by
  have hvex : ∃ f, v = Json.obj f := by
    cases v with
    | obj f => exact ⟨f, rfl⟩
    | null => exact Option.noConfusion hdj
    | bool b => exact Option.noConfusion hdj
    | num n => exact Option.noConfusion hdj
    | str s2 => exact Option.noConfusion hdj
    | arr l => exact Option.noConfusion hdj
  obtain ⟨vf, rfl⟩ := hvex
  have hdjex : ∃ f, dj = Json.obj f := by
    cases dj with
    | obj f => exact ⟨f, rfl⟩
    | null => exact Option.noConfusion hsha
    | bool b => exact Option.noConfusion hsha
    | num n => exact Option.noConfusion hsha
    | str s2 => exact Option.noConfusion hsha
    | arr l => exact Option.noConfusion hsha
  obtain ⟨djf, rfl⟩ := hdjex
  have htrv : jsTruthy (some (Json.obj vf)) = true := rfl
  have hvobj : isObjectEntry (Json.obj vf) = true := rfl
  have hvobj2 : isObjectEntry (setField (Json.obj vf) "dist"
      (setField (Json.obj djf) "sha256" (Json.str t))) = true := rfl
  have hbvlk : versionBaseLookup bvm (Json.obj vf) = some (Json.obj vf) := by
    unfold versionBaseLookup
    rw [hvv]
    exact hbv
  have hvv2 : getField (setField (Json.obj vf) "dist" (setField (Json.obj djf) "sha256"
      (Json.str t))) "version" = some (Json.str vstr) := by
    rw [getField_setField_ne _ (by decide)]
    exact hvv
  have hbvlk2 : versionBaseLookup bvm (setField (Json.obj vf) "dist"
      (setField (Json.obj djf) "sha256" (Json.str t))) = some (Json.obj vf) := by
    unfold versionBaseLookup
    rw [hvv2]
    exact hbv
  have hpidb : (pid != "") = true := bne_empty_of_isNonEmptyString hpid
  have hvstrb : (vstr != "") = true := bne_empty_of_isNonEmptyString hvstr
  have hlab : versionLabelOf bp (Json.obj vf) = pid ++ "/" ++ vstr := by
    unfold versionLabelOf
    rw [hid, hvv]
    simp [jsTruthy, jsTemplate, jsToString, hpidb, hvstrb]
  have hlab2 : versionLabelOf bp (setField (Json.obj vf) "dist"
      (setField (Json.obj djf) "sha256" (Json.str t))) = pid ++ "/" ++ vstr := by
    unfold versionLabelOf
    rw [hid, hvv2]
    simp [jsTruthy, jsTemplate, jsToString, hpidb, hvstrb]
  have htne : (t != "") = true := by
    rcases (show decide ((jsLower t).data.length = 64) = true ∧
        ((jsLower t).data.all
          (fun c => c.isDigit || (decide ('a' ≤ c) && decide (c ≤ 'f')))) = true by
      simpa [isValidSha256] using ht) with ⟨hlen, -⟩
    have hlen2 : (jsLower t).data.length = 64 := of_decide_eq_true hlen
    apply bne_empty_of_data_ne
    intro he
    rw [show (jsLower t).data = t.data.map Char.toLower from rfl, he] at hlen2
    exact absurd hlen2 (by decide)
  have hdist2 : getField (setField (Json.obj vf) "dist" (setField (Json.obj djf) "sha256"
      (Json.str t))) "dist" = some (setField (Json.obj djf) "sha256" (Json.str t)) :=
    getField_setField_self hdj _
  have hsha2 : getField (setField (Json.obj djf) "sha256" (Json.str t)) "sha256"
      = some (Json.str t) := getField_setField_self hsha _
  have htyp2 : getField (setField (Json.obj djf) "sha256" (Json.str t)) "type"
      = getField (Json.obj djf) "type" := getField_setField_ne _ (by decide)
  have hurl2 : getField (setField (Json.obj djf) "sha256" (Json.str t)) "url"
      = getField (Json.obj djf) "url" := getField_setField_ne _ (by decide)
  have hent2 : getField (setField (Json.obj vf) "dist" (setField (Json.obj djf) "sha256"
      (Json.str t))) "entry" = getField (Json.obj vf) "entry" :=
    getField_setField_ne _ (by decide)
  have hperm2 : getField (setField (Json.obj vf) "dist" (setField (Json.obj djf) "sha256"
      (Json.str t))) "permissions" = getField (Json.obj vf) "permissions" :=
    getField_setField_ne _ (by decide)
  intro VA
  induction VA with
  | nil =>
    intro seen VB hbase
    rw [List.nil_append] at hbase ⊢
    rw [walkVersions_cons, walkVersion_hit hvobj hbvlk htrv] at hbase
    rcases List.append_eq_nil.mp (congrArg Prod.fst hbase) with ⟨hv1, hrest1⟩
    rcases List.append_eq_nil.mp (congrArg Prod.snd hbase) with ⟨-, hrest2⟩
    rcases List.append_eq_nil.mp hv1 with ⟨hx4, -⟩
    rcases List.append_eq_nil.mp hx4 with ⟨hx3, hperm⟩
    rcases List.append_eq_nil.mp hx3 with ⟨hx2, hdist⟩
    rcases List.append_eq_nil.mp hx2 with ⟨hr1, hentry⟩
    have hseen : seen.contains vstr = false := by
      cases hc : seen.contains vstr with
      | false => rfl
      | true =>
        exfalso
        have hm : vstr ∈ seen := by simpa using hc
        have hr1b := hr1
        unfold versionStringErrors at hr1b
        rw [hvv] at hr1b
        simp [hvstr, hm] at hr1b
    have hnotmem : vstr ∉ seen := by simpa using hseen
    have hr1full : versionStringErrors seen bp (Json.obj vf) (pid ++ "/" ++ vstr)
        = ([], seen ++ [vstr]) := by
      unfold versionStringErrors
      rw [hvv]
      simp [hvstr, hnotmem]
    have hr1full2 : versionStringErrors seen bp (setField (Json.obj vf) "dist"
          (setField (Json.obj djf) "sha256" (Json.str t))) (pid ++ "/" ++ vstr)
        = ([], seen ++ [vstr]) := by
      unfold versionStringErrors
      rw [hvv2]
      simp [hvstr, hnotmem]
    rw [hlab] at hdist hentry hperm hrest1 hrest2
    rw [hr1full] at hrest1 hrest2
    have hshape : distShapeOk (Json.obj vf) = true := by
      cases hsh : distShapeOk (Json.obj vf) with
      | true => rfl
      | false =>
        exfalso
        unfold distErrors at hdist
        rw [hsh] at hdist
        simp at hdist
    have hshape2 := hshape
    unfold distShapeOk at hshape2
    rw [hdj] at hshape2
    simp only [optChain] at hshape2
    rw [Bool.and_eq_true, Bool.and_eq_true, Bool.and_eq_true] at hshape2
    rcases hshape2 with ⟨⟨⟨-, htypeB⟩, hurlC⟩, hshaB⟩
    rw [hsha] at hshaB
    have hsval : isValidSha256 (jsLower s) = true := by
      by_cases hse : s = ""
      · subst hse
        simp [jsStringOrEmpty, jsTruthy, jsTemplate, jsToString] at hshaB
        exact absurd hshaB (by decide)
      · have hsb : (s != "") = true := by simpa using hse
        simpa [jsStringOrEmpty, jsTruthy, jsTemplate, jsToString, hsb] using hshaB
    rcases isNonEmptyString_elim hurlC with ⟨u, hurl, hub⟩
    have hurlerrs : distUrlErrors u (pid ++ "/" ++ vstr) = [] := by
      have hd0 := hdist
      unfold distErrors at hd0
      rw [hdj] at hd0
      simp only [optChain] at hd0
      rw [hurl] at hd0
      simp [hshape] at hd0
      exact hd0
    have hshape3 : distShapeOk (setField (Json.obj vf) "dist"
        (setField (Json.obj djf) "sha256" (Json.str t))) = true := by
      unfold distShapeOk
      rw [hdist2]
      simp only [optChain]
      rw [htyp2, hurl2, hsha2]
      rw [Bool.and_eq_true, Bool.and_eq_true, Bool.and_eq_true]
      refine ⟨⟨⟨rfl, htypeB⟩, hurlC⟩, ?_⟩
      simpa [jsStringOrEmpty, jsTruthy, jsTemplate, jsToString, htne] using ht
    have hdisterr2 : distErrors (setField (Json.obj vf) "dist"
        (setField (Json.obj djf) "sha256" (Json.str t))) (pid ++ "/" ++ vstr) = [] := by
      unfold distErrors
      rw [hdist2]
      simp only [optChain]
      rw [hurl2, hurl]
      simp [hshape3]
      exact hurlerrs
    have hentry2 : entryErrors (setField (Json.obj vf) "dist"
        (setField (Json.obj djf) "sha256" (Json.str t))) (pid ++ "/" ++ vstr) = [] := by
      rw [entryErrors_congr hent2]
      exact hentry
    have hperm2e : permissionsErrors (setField (Json.obj vf) "dist"
        (setField (Json.obj djf) "sha256" (Json.str t))) (pid ++ "/" ++ vstr) = [] := by
      rw [permissionsErrors_congr hperm2]
      exact hperm
    have hneq : ¬ (stableStringify (Json.obj vf) = stableStringify (setField (Json.obj vf)
        "dist" (setField (Json.obj djf) "sha256" (Json.str t)))) := by
      intro hcontra
      exact stable_ne_of_sha_change hdj hsha (sha_chars_hexCI hsval) (sha_chars_hexCI ht)
        hne hcontra.symm
    rw [walkVersions_cons, walkVersion_hit hvobj2 hbvlk2 htrv, hlab2]
    rw [hr1full2, hentry2, hdisterr2, hperm2e, if_neg hneq]
    rw [hrest1, hrest2]
    simp
  | cons w VA ih =>
    intro seen VB hbase
    rw [List.cons_append] at hbase ⊢
    rw [walkVersions_cons] at hbase ⊢
    rcases List.append_eq_nil.mp (congrArg Prod.fst hbase) with ⟨ha, hb⟩
    rcases List.append_eq_nil.mp (congrArg Prod.snd hbase) with ⟨hc, hd2⟩
    have hrest := ih (walkVersion bvm bp seen w).2.1 VB (Prod.ext hb hd2)
    rw [hrest, ha, hc]
    simp

theorem walkAll_cons (bm : List (String × Json)) (p : Json) (rest : List Json) :
    walkAll bm (p :: rest) = ((walkPlugin bm p).1 ++ (walkAll bm rest).1,
      (walkPlugin bm p).2 ++ (walkAll bm rest).2) := by
  simp [walkAll]

/-- C3 amended: for a well-formed base document, changing bytes of one
existing version's `dist.sha256` while keeping it a 64-character
case-insensitive hex string yields exactly one error — the
modifies-existing-version error with that version's label — and `ok = false`.
(The original claim fails for byte changes that break the hex shape: those
additionally trigger the dist shape error, see the counterexample.) -/
theorem sha_byte_change_single_error (fetchO : String → FetchResponse)
    (hashHex : List Nat → String) (k : Nat) (c : Char)
    {base bp v dj v2 bp2 pr : Json} {A B VA VB : List Json} {pid vstr s t : String}
    (hwf : validate noFetch noHash base base = ⟨true, []⟩)
    (hbl : getField base "plugins" = some (.arr (A ++ bp :: B)))
    (hid : getField bp "id" = some (.str pid))
    (hpid : isNonEmptyString (some (.str pid)) = true)
    (hB : ∀ q ∈ B, pluginIdIs q pid = false)
    (hvs : getField bp "versions" = some (.arr (VA ++ v :: VB)))
    (hvv : getField v "version" = some (.str vstr))
    (hvstr : isNonEmptyString (some (.str vstr)) = true)
    (hVB : ∀ w ∈ VB, versionStrIs w vstr = false)
    (hdj : getField v "dist" = some dj)
    (hsha : getField dj "sha256" = some (.str s))
    (ht : isValidSha256 (jsLower t) = true)
    (hk : k < s.data.length) (htd : t.data = s.data.set k c)
    (hcne : s.data[k]? ≠ some c)
    (hv2 : v2 = setField v "dist" (setField dj "sha256" (.str t)))
    (hbp2 : bp2 = setField bp "versions" (.arr (VA ++ v2 :: VB)))
    (hpr : pr = setField base "plugins" (.arr (A ++ bp2 :: B))) :
    validate fetchO hashHex base pr
      = ⟨false, ["pr index.json: version \"" ++ (pid ++ "/" ++ vstr)
          ++ "\" modifies existing version"]⟩ := by
  have hne : s ≠ t := str_ne_of_set_byte hk htd hcne
  have hbex : ∃ f, base = Json.obj f := by
    cases base with
    | obj f => exact ⟨f, rfl⟩
    | null => exact Option.noConfusion hbl
    | bool b => exact Option.noConfusion hbl
    | num n => exact Option.noConfusion hbl
    | str s2 => exact Option.noConfusion hbl
    | arr l => exact Option.noConfusion hbl
  obtain ⟨bf, rfl⟩ := hbex
  have hbpex : ∃ f, bp = Json.obj f := by
    cases bp with
    | obj f => exact ⟨f, rfl⟩
    | null => exact Option.noConfusion hvs
    | bool b => exact Option.noConfusion hvs
    | num n => exact Option.noConfusion hvs
    | str s2 => exact Option.noConfusion hvs
    | arr l => exact Option.noConfusion hvs
  obtain ⟨bpf, rfl⟩ := hbpex
  have htrv : jsTruthy (some v) = true := by
    cases v with
    | obj f => rfl
    | null => exact Option.noConfusion hdj
    | bool b => exact Option.noConfusion hdj
    | num n => exact Option.noConfusion hdj
    | str s2 => exact Option.noConfusion hdj
    | arr l => exact Option.noConfusion hdj
  have htrbp : jsTruthy (some (Json.obj bpf)) = true := rfl
  have hbpobj : isObjectEntry (Json.obj bpf) = true := rfl
  have herr : (validate noFetch noHash (Json.obj bf) (Json.obj bf)).errors = [] := by
    rw [hwf]
  rw [validate_errors] at herr
  rcases List.append_eq_nil.mp herr with ⟨h16, h7⟩
  rcases List.append_eq_nil.mp h16 with ⟨h15, h6⟩
  rcases List.append_eq_nil.mp h15 with ⟨h14, h5⟩
  rcases List.append_eq_nil.mp h14 with ⟨h13, h4⟩
  rcases List.append_eq_nil.mp h13 with ⟨h12, h3⟩
  rcases List.append_eq_nil.mp h12 with ⟨h1, h2⟩
  rw [validateIndexShape_eq] at h1
  rcases List.append_eq_nil.mp h1 with ⟨h1a, h1c⟩
  rcases List.append_eq_nil.mp h1a with ⟨hsv, hnm⟩
  have hsv1 : getField (Json.obj bf) "schemaVersion" = some (.num 1) := svErrors_elim hsv
  have hnm1 : isNonEmptyString (getField (Json.obj bf) "name") = true := nameReqErrors_elim hnm
  have hbpid2 : getField bp2 "id" = some (.str pid) := by
    rw [hbp2, getField_setField_ne _ (by decide)]
    exact hid
  have hbpvs2 : getField bp2 "versions" = some (.arr (VA ++ v2 :: VB)) := by
    rw [hbp2]
    exact getField_setField_self hvs _
  have hbpobj2 : isObjectEntry bp2 = true := by
    rw [hbp2]
    rfl
  have hprpl : getField pr "plugins" = some (.arr (A ++ bp2 :: B)) := by
    rw [hpr]
    exact getField_setField_self hbl _
  have hprsv : getField pr "schemaVersion" = getField (Json.obj bf) "schemaVersion" := by
    rw [hpr]
    exact getField_setField_ne _ (by decide)
  have hprnm : getField pr "name" = getField (Json.obj bf) "name" := by
    rw [hpr]
    exact getField_setField_ne _ (by decide)
  have hprpls : prPluginsOf pr = A ++ bp2 :: B := by
    show (validateIndexShape pr "pr index.json").2 = _
    rw [validateIndexShape_eq]
    exact pluginsListOf_of hprpl
  have hbasepls : prPluginsOf (Json.obj bf) = A ++ (Json.obj bpf) :: B := by
    show (validateIndexShape (Json.obj bf) "pr index.json").2 = _
    rw [validateIndexShape_eq]
    exact pluginsListOf_of hbl
  have hbasepls0 : basePluginsOf (Json.obj bf) = A ++ (Json.obj bpf) :: B := by
    show (validateIndexShape (Json.obj bf) "base index.json").2 = _
    rw [validateIndexShape_eq]
    exact pluginsListOf_of hbl
  have hE1 : (validateIndexShape (Json.obj bf) "base index.json").1 = [] := by
    rw [validateIndexShape_eq]
    show svErrors (Json.obj bf) "base index.json"
      ++ nameReqErrors (Json.obj bf) "base index.json"
      ++ pluginsArrErrors (Json.obj bf) "base index.json" = []
    rw [svErrors_nil_of hsv1, nameReqErrors_nil_of hnm1, pluginsArrErrors_nil_of hbl]
    rfl
  have hE2 : (validateIndexShape pr "pr index.json").1 = [] := by
    rw [validateIndexShape_eq]
    show svErrors pr "pr index.json" ++ nameReqErrors pr "pr index.json"
      ++ pluginsArrErrors pr "pr index.json" = []
    rw [svErrors_nil_of (by rw [hprsv]; exact hsv1),
      nameReqErrors_nil_of (by rw [hprnm]; exact hnm1), pluginsArrErrors_nil_of hprpl]
    rfl
  have hE3 : nameErrors (Json.obj bf) pr = [] := by
    unfold nameErrors
    rw [hprnm]
    rcases isNonEmptyString_elim hnm1 with ⟨nm, hnmf, hnmb⟩
    rw [hnmf]
    simp [jsStrictEqSeparate]
  have hchk : ∀ ids, prPluginCheckErrors ids bp2 = prPluginCheckErrors ids (Json.obj bpf) := by
    intro ids
    have hie : ∀ (X : List Json) (y : Json) (Y : List Json), (X ++ y :: Y).isEmpty = false := by
      intro X y Y
      cases X with
      | nil => rfl
      | cons a as => rfl
    unfold prPluginCheckErrors
    rw [hbpid2, hid]
    rw [show getField bp2 "name" = getField (Json.obj bpf) "name" from by
      rw [hbp2]; exact getField_setField_ne _ (by decide)]
    rw [show getField bp2 "description" = getField (Json.obj bpf) "description" from by
      rw [hbp2]; exact getField_setField_ne _ (by decide)]
    rw [show getField bp2 "readme" = getField (Json.obj bpf) "readme" from by
      rw [hbp2]; exact getField_setField_ne _ (by decide)]
    rw [hbpvs2, hvs]
    simp [hie]
  have hstep : ∀ ids, prIdsStep ids bp2 = prIdsStep ids (Json.obj bpf) := by
    intro ids
    unfold prIdsStep
    rw [hbpid2, hid]
  have hE4 : (prLoop [] (prPluginsOf pr)).1 = [] := by
    rw [hprpls]
    rw [prLoop_congr_mid B (by rw [hbpobj2, hbpobj]) hchk hstep A []]
    rw [← hbasepls]
    exact h4
  have htru : ∀ s2, jsTruthy (prGet (prEntriesOf (A ++ bp2 :: B)) s2)
      = jsTruthy (prGet (prEntriesOf (A ++ (Json.obj bpf) :: B)) s2) := by
    intro s2
    rcases prGet_entries_mid B hbpid2 hid hbpobj2 hbpobj A s2 with ⟨hx1, hx2⟩ | heq
    · rw [hx1, hx2]
      rw [hbp2]
      rfl
    · rw [heq]
  have hE5 : removalErrors (baseMapOf (Json.obj bf)) (prLoop [] (prPluginsOf pr)).2 = [] := by
    rw [hprpls, prLoop_snd]
    rw [removalErrors_congr_truthy htru]
    rw [prLoop_snd, hbasepls] at h5
    exact h5
  have hgetbp : mapGet (baseMapOf (Json.obj bf)) pid = some (Json.obj bpf) := by
    unfold baseMapOf basePluginMapOf
    rw [hbasepls0, basePluginMapGo_append]
    simp only [basePluginMapGo, hid, htrbp, hpid, Bool.and_self, if_true]
    rw [basePluginMapGo_get_skip B _ hB]
    exact mapGet_mapSet_self _ pid (Json.obj bpf)
  have hpbvv : pluginBaseVersions (baseMapOf (Json.obj bf)) (Json.obj bpf)
      = baseVersionsGo [] (VA ++ v :: VB) := by
    unfold pluginBaseVersions
    rw [hid]
    show baseVersionsOf (mapGet (baseMapOf (Json.obj bf)) pid) = _
    rw [hgetbp]
    simp only [baseVersionsOf, optChain, htrbp, if_true, hvs]
  have hbvv : mapGet (baseVersionsGo [] (VA ++ v :: VB)) vstr = some v := by
    rw [baseVersionsGo_append]
    simp only [baseVersionsGo, hvv, htrv, hvstr, Bool.and_self, if_true]
    rw [baseVersionsGo_get_skip VB _ hVB]
    exact mapGet_mapSet_self _ vstr v
  have hdl0 : downloadsOf (Json.obj bf) (Json.obj bf) = [] := downloadLoopErrors_noFetch_nil h7
  have hw0 : walkAll (baseMapOf (Json.obj bf)) (A ++ (Json.obj bpf) :: B) = ([], []) := by
    have h6b : (walkAll (baseMapOf (Json.obj bf)) (A ++ (Json.obj bpf) :: B)).1 = [] := by
      have h6c := h6
      unfold walkResultOf at h6c
      rw [hbasepls] at h6c
      exact h6c
    have h6d : (walkAll (baseMapOf (Json.obj bf)) (A ++ (Json.obj bpf) :: B)).2 = [] := by
      have h7c := hdl0
      unfold downloadsOf walkResultOf at h7c
      rw [hbasepls] at h7c
      exact h7c
    exact Prod.ext h6b h6d
  rw [walkAll_append] at hw0
  rcases List.append_eq_nil.mp (congrArg Prod.fst hw0) with ⟨hwA1, hwrest1⟩
  rcases List.append_eq_nil.mp (congrArg Prod.snd hw0) with ⟨hwA2, hwrest2⟩
  rw [walkAll_cons] at hwrest1 hwrest2
  rcases List.append_eq_nil.mp hwrest1 with ⟨hwbp1, hwB1⟩
  rcases List.append_eq_nil.mp hwrest2 with ⟨hwbp2, hwB2⟩
  have hbclean : walkVersions (pluginBaseVersions (baseMapOf (Json.obj bf)) (Json.obj bpf))
      (Json.obj bpf) [] (VA ++ v :: VB) = ([], []) := by
    rw [← walkPlugin_eq_of_versions hbpobj hvs]
    exact Prod.ext hwbp1 hwbp2
  have hrepl := walkVersions_sha_replace hpid hid hvv hvstr
    (by rw [hpbvv]; exact hbvv) hdj hsha ht hne VA [] VB hbclean
  have hwplug2 : walkPlugin (baseMapOf (Json.obj bf)) bp2
      = (["pr index.json: version \"" ++ (pid ++ "/" ++ vstr)
          ++ "\" modifies existing version"], []) := by
    rw [walkPlugin_eq_of_versions hbpobj2 hbpvs2]
    rw [show pluginBaseVersions (baseMapOf (Json.obj bf)) bp2
        = pluginBaseVersions (baseMapOf (Json.obj bf)) (Json.obj bpf) from by
      unfold pluginBaseVersions
      rw [hbpid2, hid]]
    rw [walkVersions_congr_plugin (show getField bp2 "id" = getField (Json.obj bpf) "id" from by
      rw [hbpid2, hid]) (VA ++ v2 :: VB) []]
    rw [hv2]
    exact hrepl
  have hE6 : walkAll (baseMapOf (Json.obj bf)) (A ++ bp2 :: B)
      = (["pr index.json: version \"" ++ (pid ++ "/" ++ vstr)
          ++ "\" modifies existing version"], []) := by
    rw [walkAll_append, walkAll_cons, hwplug2, hwA1, hwA2, hwB1, hwB2]
    simp
  have herr2 : (validate fetchO hashHex (Json.obj bf) pr).errors
      = ["pr index.json: version \"" ++ (pid ++ "/" ++ vstr)
          ++ "\" modifies existing version"] := by
    rw [validate_errors]
    rw [hE1, hE2, hE3, hE4, hE5]
    rw [show (walkResultOf (Json.obj bf) pr).1
        = ["pr index.json: version \"" ++ (pid ++ "/" ++ vstr)
            ++ "\" modifies existing version"] from by
      unfold walkResultOf
      rw [hprpls, hE6]]
    rw [show downloadLoopErrors fetchO hashHex (downloadsOf (Json.obj bf) pr) = [] from by
      rw [show downloadsOf (Json.obj bf) pr = [] from by
        unfold downloadsOf walkResultOf
        rw [hprpls, hE6]]
      rfl]
    rfl
  have hok2 : (validate fetchO hashHex (Json.obj bf) pr).ok = false := by
    rw [validate_ok, herr2]
    rfl
  rcases hx : validate fetchO hashHex (Json.obj bf) pr with ⟨okv, errv⟩
  rw [hx] at hok2 herr2
  have hok3 : okv = false := hok2
  have herr3 : errv = ["pr index.json: version \"" ++ (pid ++ "/" ++ vstr)
      ++ "\" modifies existing version"] := herr2
  rw [hok3, herr3]

/-- C3 witness: changing the first byte of `versionA`'s sha256 from `'a'` to
`'b'` (keeping 64 hex characters) yields exactly the modifies-existing-version
error for `a/1.0.0` and `ok = false`, whatever the fetch oracle does. -/
theorem sha_byte_change_single_error_witness :
    validate okFetch noHash baseDoc
        (setField baseDoc "plugins" (.arr [setField pluginA "versions"
          (.arr [setField versionA "dist" (setField distA "sha256" (.str shaA1))])]))
      = ⟨false, ["pr index.json: version \"a/1.0.0\" modifies existing version"]⟩ := by
  have h := sha_byte_change_single_error okFetch noHash 0 'b'
    (show validate noFetch noHash baseDoc baseDoc = ⟨true, []⟩ from rfl)
    (show getField baseDoc "plugins" = some (.arr ([] ++ pluginA :: [])) from rfl)
    (show getField pluginA "id" = some (.str "a") from rfl)
    (show isNonEmptyString (some (.str "a")) = true from rfl)
    (by simp)
    (show getField pluginA "versions" = some (.arr ([] ++ versionA :: [])) from rfl)
    (show getField versionA "version" = some (.str "1.0.0") from rfl)
    (show isNonEmptyString (some (.str "1.0.0")) = true from rfl)
    (by simp)
    (show getField versionA "dist" = some distA from rfl)
    (show getField distA "sha256" = some (.str shaA) from rfl)
    (show isValidSha256 (jsLower shaA1) = true by decide)
    (by decide)
    (by decide)
    (by decide)
    rfl
    rfl
    rfl
  exact h
